import Mathlib

/-!
# Verification of the solid-planner task manager core

Shallow embedding of the task-relationship graph (`src/models/TaskGraph.ts`),
the task store getters (`src/stores/tasks.ts`), the IndexedDB local store
(`src/storage/local/indexeddb-storage.ts`), the `TaskClass` child-list
helper (`src/models/TaskClass.ts`) and the redesigned three-phase
`SyncService.sync` (`src/storage/sync/sync-service.ts`), together with
proofs of the specification claims about them.

JavaScript `Map` objects are modelled as association lists with unique keys
(`alLookup` / `alSet` / `alErase` mirror `get` / `set` / `delete`);
timestamps (`Date.getTime()` values) are modelled as `Int`.
-/

namespace SolidPlanner

/-- First-match association-list lookup: `Map.get` (maps hold unique keys). -/
def alLookup {α : Type} : List (String × α) → String → Option α
  | [], _ => none
  | (k', v) :: rest, k => if k' = k then some v else alLookup rest k

/-- `Map.set`: replace the value at the key if present, else append. -/
def alSet {α : Type} : List (String × α) → String → α → List (String × α)
  | [], k, v => [(k, v)]
  | (k', v') :: rest, k, v =>
      if k' = k then (k, v) :: rest else (k', v') :: alSet rest k v

/-- `Map.delete`: drop the entry at the key. -/
def alErase {α : Type} : List (String × α) → String → List (String × α)
  | [], _ => []
  | (k', v') :: rest, k => if k' = k then rest else (k', v') :: alErase rest k

def alKeys {α : Type} (l : List (String × α)) : List String := l.map Prod.fst

theorem alLookup_alSet_self {α : Type} (l : List (String × α)) (k : String) (v : α) :
    alLookup (alSet l k v) k = some v := by
  induction l with
  | nil => simp [alSet, alLookup]
  | cons h t ih =>
      obtain ⟨k', v'⟩ := h
      by_cases hk : k' = k <;> simp [alSet, alLookup, hk, ih]

theorem alLookup_alSet_ne {α : Type} (l : List (String × α)) (k k' : String) (v : α)
    (h : k' ≠ k) : alLookup (alSet l k v) k' = alLookup l k' := by
  have hne : ¬ k = k' := fun h' => h h'.symm
  induction l with
  | nil => simp [alSet, alLookup, hne]
  | cons hd t ih =>
      obtain ⟨k₀, v₀⟩ := hd
      by_cases hk : k₀ = k
      · subst hk
        simp [alSet, alLookup, hne]
      · by_cases hk' : k₀ = k' <;> simp [alSet, alLookup, hk, hk', ih, h]

theorem alLookup_alErase_ne {α : Type} (l : List (String × α)) (k k' : String)
    (h : k' ≠ k) : alLookup (alErase l k) k' = alLookup l k' := by
  have hne : ¬ k = k' := fun h' => h h'.symm
  induction l with
  | nil => simp [alErase]
  | cons hd t ih =>
      obtain ⟨k₀, v₀⟩ := hd
      by_cases hk : k₀ = k
      · subst hk
        simp [alErase, alLookup, hne]
      · by_cases hk' : k₀ = k' <;> simp [alErase, alLookup, hk, hk', ih, h]

theorem alLookup_eq_none_of_not_mem {α : Type} (l : List (String × α)) (k : String)
    (h : k ∉ alKeys l) : alLookup l k = none := by
  induction l with
  | nil => simp [alLookup]
  | cons hd t ih =>
      obtain ⟨k₀, v₀⟩ := hd
      simp only [alKeys, List.map_cons, List.mem_cons] at h
      push_neg at h
      simp [alLookup, Ne.symm h.1, ih (by simpa [alKeys] using h.2)]

theorem alKeys_cons {α : Type} (k₀ : String) (v₀ : α) (t : List (String × α)) :
    alKeys ((k₀, v₀) :: t) = k₀ :: alKeys t := rfl

theorem mem_alKeys_of_alLookup {α : Type} {l : List (String × α)} {k : String} {v : α}
    (h : alLookup l k = some v) : k ∈ alKeys l := by
  induction l with
  | nil => simp [alLookup] at h
  | cons hd t ih =>
      obtain ⟨k₀, v₀⟩ := hd
      rw [alKeys_cons, List.mem_cons]
      by_cases hk : k₀ = k
      · exact Or.inl hk.symm
      · simp only [alLookup, hk, if_false] at h
        exact Or.inr (ih h)

theorem alLookup_alErase_self {α : Type} (l : List (String × α)) (k : String)
    (h : (alKeys l).Nodup) : alLookup (alErase l k) k = none := by
  induction l with
  | nil => simp [alErase, alLookup]
  | cons hd t ih =>
      obtain ⟨k₀, v₀⟩ := hd
      rw [alKeys_cons, List.nodup_cons] at h
      by_cases hk : k₀ = k
      · subst hk
        simpa [alErase] using alLookup_eq_none_of_not_mem t k₀ h.1
      · simpa [alErase, alLookup, hk] using ih h.2

theorem mem_alKeys_alErase {α : Type} {l : List (String × α)} {k k' : String}
    (h : k' ∈ alKeys (alErase l k)) : k' ∈ alKeys l := by
  induction l with
  | nil => simp [alErase, alKeys] at h
  | cons hd t ih =>
      obtain ⟨k₀, v₀⟩ := hd
      rw [alKeys_cons, List.mem_cons]
      by_cases hk : k₀ = k
      · simp only [alErase, hk, if_true] at h
        exact Or.inr h
      · simp only [alErase, hk, if_false, alKeys_cons, List.mem_cons] at h
        exact h.imp id ih

theorem alKeys_alErase_nodup {α : Type} (l : List (String × α)) (k : String)
    (h : (alKeys l).Nodup) : (alKeys (alErase l k)).Nodup := by
  induction l with
  | nil => simp [alErase, alKeys]
  | cons hd t ih =>
      obtain ⟨k₀, v₀⟩ := hd
      rw [alKeys_cons, List.nodup_cons] at h
      by_cases hk : k₀ = k
      · simpa [alErase, hk] using h.2
      · simp only [alErase, hk, if_false, alKeys_cons, List.nodup_cons]
        exact ⟨fun hmem => h.1 (mem_alKeys_alErase hmem), ih h.2⟩

theorem mem_alKeys_alSet {α : Type} {l : List (String × α)} {k k' : String} {v : α}
    (h : k' ∈ alKeys (alSet l k v)) : k' ∈ alKeys l ∨ k' = k := by
  induction l with
  | nil => simpa [alSet, alKeys, eq_comm] using h
  | cons hd t ih =>
      obtain ⟨k₀, v₀⟩ := hd
      by_cases hk : k₀ = k
      · subst hk
        simp only [alSet, if_true, alKeys_cons, List.mem_cons] at h ⊢
        tauto
      · simp only [alSet, hk, if_false, alKeys_cons, List.mem_cons] at h ⊢
        rcases h with h | h
        · exact Or.inl (Or.inl h)
        · rcases ih h with h' | h'
          · exact Or.inl (Or.inr h')
          · exact Or.inr h'

theorem alKeys_alSet_nodup {α : Type} (l : List (String × α)) (k : String) (v : α)
    (h : (alKeys l).Nodup) : (alKeys (alSet l k v)).Nodup := by
  induction l with
  | nil => simp [alSet, alKeys]
  | cons hd t ih =>
      obtain ⟨k₀, v₀⟩ := hd
      rw [alKeys_cons, List.nodup_cons] at h
      by_cases hk : k₀ = k
      · subst hk
        simp only [alSet, if_true, alKeys_cons, List.nodup_cons]
        exact ⟨h.1, h.2⟩
      · simp only [alSet, hk, if_false, alKeys_cons, List.nodup_cons]
        refine ⟨fun hmem => ?_, ih h.2⟩
        rcases mem_alKeys_alSet hmem with h' | h'
        · exact h.1 h'
        · exact hk h'

/-! ## Task Graph (`src/models/TaskGraph.ts`)

`parentMap : Map<string, string | undefined>` is an association list whose
values are `Option String` (a key can be present with value `undefined`);
`childrenMap : Map<string, string[]>` likewise.  `jsParentGet` mirrors
`parentMap.get(id)`, which returns `undefined` both for an absent key and
for a stored `undefined`. -/

structure GState where
  parentMap : List (String × Option String)
  childrenMap : List (String × List String)
deriving DecidableEq, Repr

/-- `this.parentMap.get(taskId)` as observed by JS code (`undefined` collapses). -/
def jsParentGet (s : GState) (taskId : String) : Option String :=
  (alLookup s.parentMap taskId).join

/-- `getChildrenIds(taskId)`: `this.childrenMap.get(taskId) || []`. -/
def getChildrenIds (s : GState) (taskId : String) : List String :=
  (alLookup s.childrenMap taskId).getD []

/-- Shared "remove from a parent's children list" step
(`indexOf` + `splice(index, 1)` guarded by the entry being present):
erase the first occurrence of `c` in `p`'s list, if the map has the key. -/
def dropFromChildren (cm : List (String × List String)) (p c : String) :
    List (String × List String) :=
  match alLookup cm p with
  | some children => alSet cm p (children.erase c)
  | none => cm

/-- Shared "add to a parent's children list" step: create a missing entry as
`[]`, then push `c` at the end unless the list already includes it. -/
def addToChildren (cm : List (String × List String)) (p c : String) :
    List (String × List String) :=
  let cm1 := if (alLookup cm p).isSome then cm else alSet cm p []
  let children := (alLookup cm1 p).getD []
  if c ∈ children then cm1 else alSet cm1 p (children ++ [c])

/-- `TaskGraph.setParent(taskId, parentId)`: remove from the old parent's
children (if a parent is recorded), set the new parent pointer, add to the
new parent's children. -/
def setParent (s : GState) (taskId : String) (parentId : Option String) : GState :=
  let cm1 :=
    match jsParentGet s taskId with
    | some oldP => dropFromChildren s.childrenMap oldP taskId
    | none => s.childrenMap
  let pm2 := alSet s.parentMap taskId parentId
  let cm2 :=
    match parentId with
    | some p => addToChildren cm1 p taskId
    | none => cm1
  ⟨pm2, cm2⟩

/-- `TaskGraph.addChild(parentId, childId)`.  The guard
`if (oldParentId && oldParentId !== parentId)` tests JS truthiness,
so an empty-string old parent does not trigger the removal. -/
def addChild (s : GState) (parentId childId : String) : GState :=
  let cm1 :=
    match jsParentGet s childId with
    | some oldP =>
        if oldP ≠ "" ∧ oldP ≠ parentId then dropFromChildren s.childrenMap oldP childId
        else s.childrenMap
    | none => s.childrenMap
  ⟨alSet s.parentMap childId (some parentId), addToChildren cm1 parentId childId⟩

/-- `TaskGraph.removeChild(parentId, childId)`: erase from the children
list, then clear the child's parent pointer if it still points at
`parentId` (the pointer is set to `undefined`, the key stays present).
The guard reads `this.parentMap.get(childId)`, and the preceding list
splice does not touch `parentMap`, so it reads `jsParentGet s childId`. -/
def removeChild (s : GState) (parentId childId : String) : GState :=
  if jsParentGet s childId = some parentId then
    ⟨alSet s.parentMap childId none, dropFromChildren s.childrenMap parentId childId⟩
  else
    ⟨s.parentMap, dropFromChildren s.childrenMap parentId childId⟩

/-- One `removeTaskAndDescendants` call body applied after the recursive
children pass: detach from the (current) parent's child list, then delete
the task from both maps. -/
def removeSelf (s : GState) (taskId : String) : GState :=
  let s2 :=
    match jsParentGet s taskId with
    | some p => removeChild s p taskId
    | none => s
  { parentMap := alErase s2.parentMap taskId, childrenMap := alErase s2.childrenMap taskId }

/-- Fueled form of the mutual recursion of `removeTaskAndDescendants`:
`removeManyFuel n s l` removes, in order, each task of `l` and all its
descendants, threading the mutated graph.  The JS recursion carries no
fuel; `none` marks fuel exhaustion (the JS call would still be running).
For the single call `removeTaskAndDescendants(id)` take `l = [id]`. -/
def removeManyFuel : Nat → GState → List String → Option (GState × List String)
  | 0, s, l => if l.isEmpty then some (s, []) else none
  | _ + 1, s, [] => some (s, [])
  | n + 1, s, taskId :: rest => do
      -- recursively remove all children (iterating over a copy of the list)
      let (s1, r1) ← removeManyFuel n s (getChildrenIds s taskId)
      let s3 := removeSelf s1 taskId
      let (s4, r2) ← removeManyFuel n s3 rest
      some (s4, r1 ++ taskId :: r2)

/-- `TaskGraph.removeTaskAndDescendants(taskId)` with fuel. -/
def removeTaskAndDescendantsFuel (n : Nat) (s : GState) (taskId : String) :
    Option (GState × List String) :=
  removeManyFuel n s [taskId]

/-- Fueled form of `getAllDescendantIds`, list version: descendants of each
listed task in order (each call is `[taskId] ++ children recursions`). -/
def descManyFuel : Nat → GState → List String → Option (List String)
  | 0, _, l => if l.isEmpty then some [] else none
  | _ + 1, _, [] => some []
  | n + 1, s, taskId :: rest => do
      let d1 ← descManyFuel n s (getChildrenIds s taskId)
      let d2 ← descManyFuel n s rest
      some (taskId :: (d1 ++ d2))

/-- `TaskGraph.getAllDescendantIds(taskId)` with fuel. -/
def getAllDescendantIdsFuel (n : Nat) (s : GState) (taskId : String) :
    Option (List String) :=
  descManyFuel n s [taskId]

theorem getD_dropFromChildren (cm : List (String × List String)) (p c q : String) :
    (alLookup (dropFromChildren cm p c) q).getD [] =
      if q = p then ((alLookup cm p).getD []).erase c
      else (alLookup cm q).getD [] := by
  unfold dropFromChildren
  cases h : alLookup cm p with
  | some l =>
      by_cases hq : q = p
      · subst hq; simp [alLookup_alSet_self, h]
      · simp [alLookup_alSet_ne _ _ _ _ hq, hq]
  | none =>
      by_cases hq : q = p
      · subst hq; simp [h]
      · simp [hq]

theorem getD_addToChildren (cm : List (String × List String)) (p c q : String) :
    (alLookup (addToChildren cm p c) q).getD [] =
      if q = p then
        (if c ∈ (alLookup cm p).getD [] then (alLookup cm p).getD []
         else (alLookup cm p).getD [] ++ [c])
      else (alLookup cm q).getD [] := by
  unfold addToChildren
  cases h : alLookup cm p with
  | some l =>
      simp only [h, Option.isSome_some, if_true, Option.getD_some]
      by_cases hc : c ∈ l
      · by_cases hq : q = p
        · subst hq; simp [h, hc]
        · simp [hq, hc]
      · by_cases hq : q = p
        · subst hq; simp [alLookup_alSet_self, h, hc]
        · simp [alLookup_alSet_ne _ _ _ _ hq, hq, hc]
  | none =>
      simp only [h, Option.isSome_none, Bool.false_eq_true, if_false,
        alLookup_alSet_self, Option.getD_some, List.not_mem_nil, Option.getD_none]
      by_cases hq : q = p
      · subst hq; simp [alLookup_alSet_self, h]
      · simp [alLookup_alSet_ne _ _ _ _ hq, hq, h]

theorem alKeys_dropFromChildren_nodup (cm : List (String × List String)) (p c : String)
    (h : (alKeys cm).Nodup) : (alKeys (dropFromChildren cm p c)).Nodup := by
  unfold dropFromChildren
  cases alLookup cm p with
  | some l => exact alKeys_alSet_nodup _ _ _ h
  | none => exact h

theorem alKeys_addToChildren_nodup (cm : List (String × List String)) (p c : String)
    (h : (alKeys cm).Nodup) : (alKeys (addToChildren cm p c)).Nodup := by
  unfold addToChildren
  cases hl : alLookup cm p with
  | some l =>
      simp only [hl, Option.isSome_some, if_true, Option.getD_some]
      by_cases hc : c ∈ l
      · simpa [hc] using h
      · simpa [hc] using alKeys_alSet_nodup cm p (l ++ [c]) h
  | none =>
      simp only [hl, Option.isSome_none, Bool.false_eq_true, if_false,
        alLookup_alSet_self, Option.getD_some, List.not_mem_nil, List.nil_append]
      exact alKeys_alSet_nodup _ _ _ (alKeys_alSet_nodup _ _ _ h)

/-- A task is present in the graph if either map has an entry for it. -/
def gMem (s : GState) (taskId : String) : Prop :=
  (alLookup s.parentMap taskId).isSome ∨ (alLookup s.childrenMap taskId).isSome

instance (s : GState) (taskId : String) : Decidable (gMem s taskId) := by
  unfold gMem; infer_instance

/-- Both maps have duplicate-free key lists (true of every JS `Map`). -/
def keysNodup (s : GState) : Prop :=
  (alKeys s.parentMap).Nodup ∧ (alKeys s.childrenMap).Nodup

instance (s : GState) : Decidable (keysNodup s) := by
  unfold keysNodup; infer_instance

example :
    removeTaskAndDescendantsFuel 3
      ⟨[("a", none), ("b", some "a"), ("c", some "b")], [("a", ["b"]), ("b", ["c"])]⟩
      "a" =
    some (⟨[], []⟩, ["c", "b", "a"]) := by decide

example :
    getAllDescendantIdsFuel 3
      ⟨[("a", none), ("b", some "a"), ("c", some "b")], [("a", ["b"]), ("b", ["c"])]⟩
      "a" = some ["a", "b", "c"] := by decide

example :
    getChildrenIds
      (setParent ⟨[("a", some "p"), ("b", some "p")], [("p", ["a", "b"])]⟩ "a" (some "p"))
      "p" = ["b", "a"] := by decide

/-! ## Claim C7: `setParent` with an unchanged parent -/

/-- Concrete graph for the C7 counterexample: `p` has children `[a, b]`,
both of which record `p` as parent. -/
def stateC7 : GState :=
  ⟨[("a", some "p"), ("b", some "p")], [("p", ["a", "b"])]⟩

/-- C7 (counterexample).  The claim says that when task `a` already has
parent `p`, `setParent(a, p)` leaves `getChildrenIds(p)` with the same
elements in the same order.  In `stateC7` task `a` has parent `p`, yet the
call turns `p`'s children list `["a", "b"]` into `["b", "a"]`: the code
splices `a` out and pushes it at the end, reordering the list. -/
theorem setParent_same_parent_reorders :
    jsParentGet stateC7 "a" = some "p" ∧
    getChildrenIds (setParent stateC7 "a" (some "p")) "p" ≠ getChildrenIds stateC7 "p" := by
  decide

/-- C7 (amended).  Re-setting the same parent is a no-op only up to order:
for a duplicate-free children list, `setParent(id, p)` with `id` already a
child of `p` rewrites `p`'s children list to `erase id ++ [id]` (the task
moves to the end); in particular the new list is a permutation of the old
one whenever `id` actually occurred in it. -/
theorem setParent_same_parent_children_set (s : GState) (id p : String)
    (hpar : jsParentGet s id = some p) (hnd : (getChildrenIds s p).Nodup) :
    getChildrenIds (setParent s id (some p)) p =
      (getChildrenIds s p).erase id ++ [id] ∧
    (id ∈ getChildrenIds s p →
      (getChildrenIds (setParent s id (some p)) p).Perm (getChildrenIds s p)) := by
  have hmain : getChildrenIds (setParent s id (some p)) p =
      (getChildrenIds s p).erase id ++ [id] := by
    have hnm : id ∉ ((alLookup s.childrenMap p).getD []).erase id :=
      List.Nodup.not_mem_erase hnd
    show (alLookup (setParent s id (some p)).childrenMap p).getD [] = _
    unfold setParent
    rw [hpar]
    simp only
    rw [getD_addToChildren, if_pos rfl, getD_dropFromChildren, if_pos rfl, if_neg hnm]
    rfl
  refine ⟨hmain, fun hmem => ?_⟩
  rw [hmain]
  exact (List.perm_append_singleton id _).trans (List.perm_cons_erase hmem).symm

/-- Closed instance of the amended C7 theorem at `stateC7`. -/
theorem setParent_same_parent_children_set_witness :
    getChildrenIds (setParent stateC7 "a" (some "p")) "p" =
      (getChildrenIds stateC7 "p").erase "a" ++ ["a"] ∧
    ("a" ∈ getChildrenIds stateC7 "p" →
      (getChildrenIds (setParent stateC7 "a" (some "p")) "p").Perm
        (getChildrenIds stateC7 "p")) :=
  setParent_same_parent_children_set stateC7 "a" "p" (by decide) (by decide)

/-! ## Claim C9: children lists stay duplicate-free -/

/-- Every children list observable through `getChildrenIds` is duplicate-free. -/
def NodupChildren (s : GState) : Prop := ∀ p, (getChildrenIds s p).Nodup

/-- Well-formed graph: a real JS `Map` state (unique keys) with
duplicate-free children lists. -/
def WFG (s : GState) : Prop := keysNodup s ∧ NodupChildren s

theorem getD_alSet_self {α : Type} (l : List (String × List α)) (k : String)
    (v : List α) : (alLookup (alSet l k v) k).getD [] = v := by
  simp [alLookup_alSet_self]

theorem nodup_append_singleton {α : Type} {l : List α} {a : α}
    (h : l.Nodup) (ha : a ∉ l) : (l ++ [a]).Nodup := by
  simp [List.nodup_append, h, ha]

/-- `dropFromChildren` keeps every children list duplicate-free. -/
theorem nodupChildren_drop {cm : List (String × List String)}
    (h : ∀ q, ((alLookup cm q).getD []).Nodup) (p c : String) :
    ∀ q, ((alLookup (dropFromChildren cm p c) q).getD []).Nodup := by
  intro q
  rw [getD_dropFromChildren]
  by_cases hq : q = p
  · simp only [hq, if_true]
    exact (h p).erase c
  · simpa [hq] using h q

/-- `addToChildren` keeps every children list duplicate-free (the push is
guarded by an `includes` test). -/
theorem nodupChildren_add {cm : List (String × List String)}
    (h : ∀ q, ((alLookup cm q).getD []).Nodup) (p c : String) :
    ∀ q, ((alLookup (addToChildren cm p c) q).getD []).Nodup := by
  intro q
  rw [getD_addToChildren]
  by_cases hq : q = p
  · simp only [hq, if_true]
    by_cases hc : c ∈ (alLookup cm p).getD []
    · simpa [hc] using h p
    · simpa [hc] using nodup_append_singleton (h p) hc
  · simpa [hq] using h q

theorem nodupChildren_alErase {cm : List (String × List String)}
    (h : ∀ q, ((alLookup cm q).getD []).Nodup) (hk : (alKeys cm).Nodup) (k : String) :
    ∀ q, ((alLookup (alErase cm k) q).getD []).Nodup := by
  intro q
  by_cases hq : q = k
  · subst hq; simp [alLookup_alErase_self _ _ hk]
  · rw [alLookup_alErase_ne _ _ _ hq]; exact h q

theorem wfg_setParent {s : GState} (h : WFG s) (id : String) (pid : Option String) :
    WFG (setParent s id pid) := by
  obtain ⟨⟨hpk, hck⟩, hnd⟩ := h
  have hnd' : ∀ q, ((alLookup s.childrenMap q).getD []).Nodup := hnd
  unfold setParent
  cases jsParentGet s id with
  | some oldP =>
      cases pid with
      | some np =>
          exact ⟨⟨alKeys_alSet_nodup _ _ _ hpk,
              alKeys_addToChildren_nodup _ _ _ (alKeys_dropFromChildren_nodup _ _ _ hck)⟩,
            fun q => nodupChildren_add (nodupChildren_drop hnd' oldP id) np id q⟩
      | none =>
          exact ⟨⟨alKeys_alSet_nodup _ _ _ hpk, alKeys_dropFromChildren_nodup _ _ _ hck⟩,
            fun q => nodupChildren_drop hnd' oldP id q⟩
  | none =>
      cases pid with
      | some np =>
          exact ⟨⟨alKeys_alSet_nodup _ _ _ hpk, alKeys_addToChildren_nodup _ _ _ hck⟩,
            fun q => nodupChildren_add hnd' np id q⟩
      | none =>
          exact ⟨⟨alKeys_alSet_nodup _ _ _ hpk, hck⟩, fun q => hnd' q⟩

theorem wfg_addChild {s : GState} (h : WFG s) (parentId childId : String) :
    WFG (addChild s parentId childId) := by
  obtain ⟨⟨hpk, hck⟩, hnd⟩ := h
  have hnd' : ∀ q, ((alLookup s.childrenMap q).getD []).Nodup := hnd
  unfold addChild
  cases jsParentGet s childId with
  | some oldP =>
      show WFG ⟨alSet s.parentMap childId (some parentId),
        addToChildren
          (if oldP ≠ "" ∧ oldP ≠ parentId then dropFromChildren s.childrenMap oldP childId
           else s.childrenMap) parentId childId⟩
      by_cases hg : oldP ≠ "" ∧ oldP ≠ parentId
      · rw [if_pos hg]
        exact ⟨⟨alKeys_alSet_nodup _ _ _ hpk,
            alKeys_addToChildren_nodup _ _ _ (alKeys_dropFromChildren_nodup _ _ _ hck)⟩,
          fun q => nodupChildren_add (nodupChildren_drop hnd' oldP childId) parentId childId q⟩
      · rw [if_neg hg]
        exact ⟨⟨alKeys_alSet_nodup _ _ _ hpk, alKeys_addToChildren_nodup _ _ _ hck⟩,
          fun q => nodupChildren_add hnd' parentId childId q⟩
  | none =>
      exact ⟨⟨alKeys_alSet_nodup _ _ _ hpk, alKeys_addToChildren_nodup _ _ _ hck⟩,
        fun q => nodupChildren_add hnd' parentId childId q⟩

theorem wfg_removeChild {s : GState} (h : WFG s) (parentId childId : String) :
    WFG (removeChild s parentId childId) := by
  obtain ⟨⟨hpk, hck⟩, hnd⟩ := h
  have hnd' : ∀ q, ((alLookup s.childrenMap q).getD []).Nodup := hnd
  unfold removeChild
  by_cases hc : jsParentGet s childId = some parentId
  · rw [if_pos hc]
    exact ⟨⟨alKeys_alSet_nodup _ _ _ hpk, alKeys_dropFromChildren_nodup _ _ _ hck⟩,
      fun q => nodupChildren_drop hnd' parentId childId q⟩
  · rw [if_neg hc]
    exact ⟨⟨hpk, alKeys_dropFromChildren_nodup _ _ _ hck⟩,
      fun q => nodupChildren_drop hnd' parentId childId q⟩

theorem wfg_removeSelf {s : GState} (h : WFG s) (taskId : String) :
    WFG (removeSelf s taskId) := by
  have h2 : WFG (match jsParentGet s taskId with
      | some p => removeChild s p taskId
      | none => s) := by
    cases jsParentGet s taskId with
    | some p => exact wfg_removeChild h p taskId
    | none => exact h
  obtain ⟨⟨hpk, hck⟩, hnd⟩ := h2
  unfold removeSelf
  exact ⟨⟨alKeys_alErase_nodup _ _ hpk, alKeys_alErase_nodup _ _ hck⟩,
    fun q => nodupChildren_alErase hnd hck taskId q⟩

theorem wfg_removeManyFuel {n : Nat} {s : GState} {l : List String} {s' : GState}
    {r : List String} (hrun : removeManyFuel n s l = some (s', r)) (h : WFG s) :
    WFG s' := by
  induction n generalizing s l s' r with
  | zero =>
      unfold removeManyFuel at hrun
      split at hrun
      · injection hrun with h1
        have hs : s = s' := congrArg Prod.fst h1
        exact hs ▸ h
      · cases hrun
  | succ n ih =>
      cases l with
      | nil =>
          unfold removeManyFuel at hrun
          injection hrun with h1
          have hs : s = s' := congrArg Prod.fst h1
          exact hs ▸ h
      | cons taskId rest =>
          simp only [removeManyFuel, Option.bind_eq_bind, Option.bind_eq_some] at hrun
          obtain ⟨⟨s1, r1⟩, h1, ⟨⟨s4, r2⟩, h4, heq⟩⟩ := hrun
          injection heq with h5
          have hs : s4 = s' := congrArg Prod.fst h5
          exact hs ▸ ih h4 (wfg_removeSelf (ih h1 h) taskId)

/-- The mutating graph operations a caller can perform (the fuel argument
of `remTask` only bounds the recursion depth of the embedded function). -/
inductive GraphOp where
  | setP (taskId : String) (parentId : Option String)
  | addC (parentId childId : String)
  | remC (parentId childId : String)
  | remTask (fuel : Nat) (taskId : String)

/-- Apply one operation; a `remTask` whose recursion does not complete
within the given fuel leaves the state unchanged. -/
def applyOp (s : GState) : GraphOp → GState
  | .setP t p => setParent s t p
  | .addC p c => addChild s p c
  | .remC p c => removeChild s p c
  | .remTask f t =>
      match removeTaskAndDescendantsFuel f s t with
      | some (s', _) => s'
      | none => s

def emptyGraph : GState := ⟨[], []⟩

theorem wfg_applyOp {s : GState} (h : WFG s) (op : GraphOp) : WFG (applyOp s op) := by
  cases op with
  | setP t p => exact wfg_setParent h t p
  | addC p c => exact wfg_addChild h p c
  | remC p c => exact wfg_removeChild h p c
  | remTask f t =>
      show WFG (match removeTaskAndDescendantsFuel f s t with
        | some (s', _) => s' | none => s)
      unfold removeTaskAndDescendantsFuel
      cases hrun : removeManyFuel f s [t] with
      | some out =>
          obtain ⟨s', r⟩ := out
          exact wfg_removeManyFuel hrun h
      | none => exact h

/-- `TaskClass.addChildId(childId)` on the `childIds` array: push only when
`includes` fails. -/
def addChildId (childIds : List String) (childId : String) : List String :=
  if childId ∈ childIds then childIds else childIds ++ [childId]

/-- C9.  Starting from an empty `TaskGraph`, any sequence of `setParent`,
`addChild`, `removeChild` and `removeTaskAndDescendants` operations keeps
every children list duplicate-free; and `TaskClass.addChildId` never
introduces a duplicate into a duplicate-free `childIds` list. -/
theorem children_lists_nodup :
    (∀ ops : List GraphOp, NodupChildren (ops.foldl applyOp emptyGraph)) ∧
    (∀ (l : List String) (c : String), l.Nodup → (addChildId l c).Nodup) := by
  constructor
  · have hfold : ∀ (ops : List GraphOp) (s : GState), WFG s → WFG (ops.foldl applyOp s) := by
      intro ops
      induction ops with
      | nil => exact fun s h => h
      | cons op rest ih =>
          intro s h
          exact ih (applyOp s op) (wfg_applyOp h op)
    intro ops
    have hempty : WFG emptyGraph := by
      refine ⟨⟨List.nodup_nil, List.nodup_nil⟩, fun p => ?_⟩
      simp [getChildrenIds, emptyGraph, alLookup]
    exact (hfold ops emptyGraph hempty).2
  · intro l c hl
    unfold addChildId
    by_cases hc : c ∈ l
    · simpa [hc] using hl
    · simpa [hc] using nodup_append_singleton hl hc

/-- Closed instance of C9: a concrete operation sequence (which tries to
re-add an existing child) and a concrete `addChildId` call. -/
theorem children_lists_nodup_witness :
    NodupChildren
      ([GraphOp.addC "p" "a", GraphOp.addC "p" "b", GraphOp.addC "p" "a",
        GraphOp.setP "a" (some "p"), GraphOp.remTask 3 "b"].foldl applyOp emptyGraph) ∧
    (addChildId ["a"] "b").Nodup ∧ ["a"].Nodup :=
  ⟨children_lists_nodup.1 _, children_lists_nodup.2 ["a"] "b" (by decide), by decide⟩

/-! ## Claim C8: termination of `getAllDescendantIds` -/

/-- `c` is a direct child of `p` according to the children map. -/
def childRel (s : GState) (c p : String) : Prop := c ∈ getChildrenIds s p

/-- No task is reachable from itself through the children map. -/
def AcyclicG (s : GState) : Prop := ∀ x, ¬ Relation.TransGen (childRel s) x x

/-- The recursion tree of `getAllDescendantIds(id)` is finite: the call
terminates.  This is the exact recursion pattern of the JS function, which
carries no cycle protection. -/
inductive DescTerm (s : GState) : String → Prop where
  | mk (id : String) (h : ∀ c ∈ getChildrenIds s id, DescTerm s c) : DescTerm s id

theorem alLookup_mem {α : Type} {l : List (String × α)} {k : String} {v : α}
    (h : alLookup l k = some v) : (k, v) ∈ l := by
  induction l with
  | nil => simp [alLookup] at h
  | cons hd t ih =>
      obtain ⟨k₀, v₀⟩ := hd
      by_cases hk : k₀ = k
      · subst hk
        simp only [alLookup, if_true] at h
        injection h with h1
        simp [h1.symm]
      · simp only [alLookup, hk, if_false] at h
        exact List.mem_cons_of_mem _ (ih h)

/-- Every id mentioned by the children map (keys and values). -/
def gIds (s : GState) : List String :=
  alKeys s.childrenMap ++ (s.childrenMap.map Prod.snd).flatten

theorem childRel_mem_left {s : GState} {c p : String} (h : childRel s c p) :
    p ∈ gIds s := by
  unfold childRel getChildrenIds at h
  cases hl : alLookup s.childrenMap p with
  | none => simp [hl] at h
  | some l => exact List.mem_append_left _ (mem_alKeys_of_alLookup hl)

theorem childRel_mem_right {s : GState} {c p : String} (h : childRel s c p) :
    c ∈ gIds s := by
  unfold childRel getChildrenIds at h
  cases hl : alLookup s.childrenMap p with
  | none => simp [hl] at h
  | some l =>
      rw [hl, Option.getD_some] at h
      refine List.mem_append_right _ (List.mem_flatten.2 ⟨l, ?_, h⟩)
      exact List.mem_map.2 ⟨(p, l), alLookup_mem hl, rfl⟩

/-- On a finite children map, acyclicity makes the child relation
well-founded (there are only finitely many mentioned ids, so an infinite
descent would revisit one). -/
theorem acc_childRel (s : GState) (hac : AcyclicG s) (x : String) :
    Acc (childRel s) x := by
  haveI hfin : Finite {y : String // y ∈ gIds s} := (gIds s).finite_toSet.to_subtype
  let r : {y // y ∈ gIds s} → {y // y ∈ gIds s} → Prop := fun c p => childRel s c.val p.val
  have hlift : ∀ {a b : {y // y ∈ gIds s}},
      Relation.TransGen r a b → Relation.TransGen (childRel s) a.val b.val := by
    intro a b h
    induction h with
    | single h1 => exact Relation.TransGen.single h1
    | tail _ h2 ih => exact Relation.TransGen.tail ih h2
  haveI : IsTrans {y // y ∈ gIds s} (Relation.TransGen r) := inferInstance
  haveI : IsIrrefl {y // y ∈ gIds s} (Relation.TransGen r) :=
    ⟨fun a ha => hac a.val (hlift ha)⟩
  have hwf : WellFounded (Relation.TransGen r) :=
    Finite.wellFounded_of_trans_of_irrefl _
  have hwfr : WellFounded r :=
    Subrelation.wf (fun h => Relation.TransGen.single h) hwf
  have hsub : ∀ p : {y // y ∈ gIds s}, Acc (childRel s) p.val := by
    intro p
    exact hwfr.induction p
      (fun q ih => Acc.intro q.val (fun c hc => ih ⟨c, childRel_mem_right hc⟩ hc))
  by_cases hx : x ∈ gIds s
  · exact hsub ⟨x, hx⟩
  · exact Acc.intro x (fun c hc => absurd (childRel_mem_left hc) hx)

theorem descTerm_of_acc {s : GState} {x : String} (h : Acc (childRel s) x) :
    DescTerm s x := by
  induction h with
  | intro x _ ih => exact DescTerm.mk x (fun c hc => ih c hc)

theorem descManyFuel_nil (s : GState) (n : Nat) : descManyFuel n s [] = some [] := by
  cases n <;> rfl

theorem descManyFuel_mono {n m : Nat} (h : n ≤ m) {s : GState} {l d : List String}
    (hd : descManyFuel n s l = some d) : descManyFuel m s l = some d := by
  induction n generalizing m l d with
  | zero =>
      unfold descManyFuel at hd
      split at hd
      · injection hd with h1
        subst h1
        have hl : l = [] := by
          cases l with
          | nil => rfl
          | cons a t => simp [List.isEmpty] at *
        subst hl
        exact descManyFuel_nil s m
      · cases hd
  | succ n ih =>
      cases l with
      | nil =>
          unfold descManyFuel at hd
          injection hd with h1
          subst h1
          exact descManyFuel_nil s m
      | cons c rest =>
          cases m with
          | zero => omega
          | succ m' =>
              have hm' : n ≤ m' := Nat.succ_le_succ_iff.mp h
              simp only [descManyFuel, Option.bind_eq_bind, Option.bind_eq_some] at hd ⊢
              obtain ⟨d1, hd1, d2, hd2, heq⟩ := hd
              exact ⟨d1, ih hm' hd1, d2, ih hm' hd2, heq⟩

/-- If the fueled recursion completes for each singleton, it completes for
the whole list. -/
theorem exists_fuel_list {s : GState} (L : List String)
    (h : ∀ c ∈ L, ∃ n d, descManyFuel n s [c] = some d) :
    ∃ n d, descManyFuel n s L = some d := by
  induction L with
  | nil => exact ⟨0, [], descManyFuel_nil s 0⟩
  | cons c rest ih =>
      obtain ⟨nc, dc, hc⟩ := h c (List.mem_cons_self c rest)
      obtain ⟨nr, dr, hr⟩ := ih (fun x hx => h x (List.mem_cons_of_mem _ hx))
      cases nc with
      | zero =>
          unfold descManyFuel at hc
          simp [List.isEmpty] at hc
      | succ k =>
          simp only [descManyFuel, Option.bind_eq_bind, Option.bind_eq_some] at hc
          obtain ⟨d1, hd1, d2, hd2, heq⟩ := hc
          refine ⟨max k nr + 1, c :: (d1 ++ dr), ?_⟩
          simp only [descManyFuel, Option.bind_eq_bind, Option.bind_eq_some]
          exact ⟨d1, descManyFuel_mono (le_max_left k nr) hd1,
            dr, descManyFuel_mono (le_max_right k nr) hr, rfl⟩

theorem exists_fuel_one {s : GState} {x : String} (h : DescTerm s x) :
    ∃ n d, descManyFuel n s [x] = some d := by
  induction h with
  | mk id hch ih =>
      obtain ⟨m, d, hm⟩ := exists_fuel_list (getChildrenIds s id) ih
      refine ⟨m + 1, id :: (d ++ []), ?_⟩
      simp only [descManyFuel, Option.bind_eq_bind, Option.bind_eq_some]
      exact ⟨d, hm, [], descManyFuel_nil s m, rfl⟩

/-- Conversely, a completed fueled run certifies termination for every
listed task. -/
theorem descTerm_of_fuel {n : Nat} {s : GState} :
    ∀ {L : List String} {d : List String}, descManyFuel n s L = some d →
      ∀ c ∈ L, DescTerm s c := by
  induction n with
  | zero =>
      intro L d hd c hc
      unfold descManyFuel at hd
      split at hd
      · rename_i hL
        rw [List.isEmpty_iff] at hL
        subst hL
        cases hc
      · cases hd
  | succ n ih =>
      intro L d hd c hc
      cases L with
      | nil => cases hc
      | cons c₀ rest =>
          simp only [descManyFuel, Option.bind_eq_bind, Option.bind_eq_some] at hd
          obtain ⟨d1, hd1, d2, hd2, _⟩ := hd
          rcases List.mem_cons.1 hc with h1 | h1
          · subst h1
            exact DescTerm.mk c (fun c' hc' => ih hd1 c' hc')
          · exact ih hd2 c h1

/-- The two-task cycle `a → b → a` stored in the children map. -/
def cycG : GState := ⟨[], [("a", ["b"]), ("b", ["a"])]⟩

theorem cycG_noterm : ∀ x, DescTerm cycG x → (x = "a" ∨ x = "b") → False := by
  intro x h
  induction h with
  | mk id hch ih =>
      intro hcase
      rcases hcase with h1 | h1
      · subst h1
        exact ih "b" (by decide) (Or.inr rfl)
      · subst h1
        exact ih "a" (by decide) (Or.inl rfl)

/-- C8 (counterexample).  The claim says `getAllDescendantIds(id)`
terminates for every children map, including cyclic ones.  On the cyclic
map `cycG` (`a → b → a`) no amount of fuel completes the recursion: the JS
function, which walks the children map with no visited-set, recurses
forever. -/
theorem getAllDescendantIds_diverges_on_cycle :
    ¬ ∃ n ds, getAllDescendantIdsFuel n cycG "a" = some ds := by
  rintro ⟨n, ds, h⟩
  exact cycG_noterm "a"
    (descTerm_of_fuel h "a" (List.mem_cons_self "a" []))
    (Or.inl rfl)

/-- C8 (amended).  `getAllDescendantIds(id)` terminates for every children
map in which no task is reachable from itself (the graphs the system's own
invariants produce); on cyclic input the recursion diverges. -/
theorem getAllDescendantIds_terminates_on_acyclic (s : GState) (id : String)
    (hac : AcyclicG s) : ∃ n ds, getAllDescendantIdsFuel n s id = some ds :=
  exists_fuel_one (descTerm_of_acc (acc_childRel s hac id))

theorem acyclicG_example : AcyclicG ⟨[], [("a", ["b"])]⟩ := by
  intro x hx
  have hstep : ∀ c p : String, childRel ⟨[], [("a", ["b"])]⟩ c p → c = "b" ∧ p = "a" := by
    intro c p hcp
    unfold childRel getChildrenIds at hcp
    by_cases hp : p = "a"
    · subst hp
      constructor
      · simpa [alLookup] using hcp
      · rfl
    · exfalso
      have hp' : ¬ "a" = p := fun hh => hp hh.symm
      have : alLookup ([("a", ["b"])] : List (String × List String)) p = none := by
        simp [alLookup, hp']
      simp [this] at hcp
  have : ∀ y z, Relation.TransGen (childRel ⟨[], [("a", ["b"])]⟩) y z → y = "b" ∧ z = "a" := by
    intro y z hyz
    induction hyz with
    | single h1 => exact hstep _ _ h1
    | tail _ h2 ih => exact ⟨ih.1, (hstep _ _ h2).2⟩
  have hx' := this x x hx
  have : ("b" : String) = "a" := hx'.1.symm.trans hx'.2 ▸ rfl
  simp at this

/-- Closed instance of the amended C8 theorem on a concrete acyclic map. -/
theorem getAllDescendantIds_terminates_on_acyclic_witness :
    ∃ n ds, getAllDescendantIdsFuel n (⟨[], [("a", ["b"])]⟩ : GState) "a" = some ds :=
  getAllDescendantIds_terminates_on_acyclic _ "a" acyclicG_example

/-! ## Claim C4: `removeTaskAndDescendants` versus `getAllDescendantIds` -/

/-- Edge of the children map, oriented from parent to child. -/
def reachRel (t : GState) (a b : String) : Prop := childRel t b a

/-- `x` is `root` or a transitive descendant of `root` in `t`'s children map. -/
def Reaches (t : GState) (root x : String) : Prop :=
  Relation.ReflTransGen (reachRel t) root x

theorem reaches_mono {t1 t2 : GState}
    (h : ∀ a, getChildrenIds t1 a ⊆ getChildrenIds t2 a) {c x : String}
    (hr : Reaches t1 c x) : Reaches t2 c x :=
  Relation.ReflTransGen.mono (fun _ _ hab => h _ hab) hr

theorem removeChild_childrenMap (s : GState) (p c : String) :
    (removeChild s p c).childrenMap = dropFromChildren s.childrenMap p c := by
  unfold removeChild
  split <;> rfl

theorem children_removeChild (s : GState) (p c q : String) :
    getChildrenIds (removeChild s p c) q =
      if q = p then (getChildrenIds s p).erase c else getChildrenIds s q := by
  show (alLookup (removeChild s p c).childrenMap q).getD [] = _
  rw [removeChild_childrenMap]
  exact getD_dropFromChildren s.childrenMap p c q

theorem isSome_alLookup_dropFromChildren (cm : List (String × List String))
    (p c x : String) :
    (alLookup (dropFromChildren cm p c) x).isSome = (alLookup cm x).isSome := by
  unfold dropFromChildren
  cases hl : alLookup cm p with
  | none => rfl
  | some l =>
      by_cases hx : x = p
      · subst hx; simp [alLookup_alSet_self, hl]
      · simp [alLookup_alSet_ne _ _ _ _ hx]

theorem gMem_removeChild (s : GState) (p c x : String) :
    gMem (removeChild s p c) x ↔ gMem s x := by
  have hcm : ∀ y, (alLookup (dropFromChildren s.childrenMap p c) y).isSome =
      (alLookup s.childrenMap y).isSome :=
    fun y => isSome_alLookup_dropFromChildren s.childrenMap p c y
  unfold removeChild
  by_cases hcond : jsParentGet s c = some p
  · rw [if_pos hcond]
    unfold gMem
    simp only
    constructor
    · rintro (h | h)
      · by_cases hx : x = c
        · subst hx
          refine Or.inl ?_
          unfold jsParentGet at hcond
          cases hl : alLookup s.parentMap x with
          | none => rw [hl] at hcond; cases hcond
          | some v => simp
        · rw [alLookup_alSet_ne _ _ _ _ hx] at h
          exact Or.inl h
      · rw [hcm x] at h
        exact Or.inr h
    · rintro (h | h)
      · by_cases hx : x = c
        · subst hx
          simp [alLookup_alSet_self]
        · rw [alLookup_alSet_ne _ _ _ _ hx]
          exact Or.inl h
      · rw [← hcm x] at h
        exact Or.inr h
  · rw [if_neg hcond]
    unfold gMem
    simp only
    rw [hcm x]

theorem keysNodup_removeChild {s : GState} (h : keysNodup s) (p c : String) :
    keysNodup (removeChild s p c) := by
  obtain ⟨hp, hc⟩ := h
  unfold removeChild
  split
  · exact ⟨alKeys_alSet_nodup _ _ _ hp, alKeys_dropFromChildren_nodup _ _ _ hc⟩
  · exact ⟨hp, alKeys_dropFromChildren_nodup _ _ _ hc⟩

theorem keysNodup_removeSelf {s : GState} (h : keysNodup s) (id : String) :
    keysNodup (removeSelf s id) := by
  have h2 : keysNodup (match jsParentGet s id with
      | some p => removeChild s p id
      | none => s) := by
    cases jsParentGet s id with
    | some p => exact keysNodup_removeChild h p id
    | none => exact h
  unfold removeSelf
  exact ⟨alKeys_alErase_nodup _ _ h2.1, alKeys_alErase_nodup _ _ h2.2⟩

/-- The inner "detach from parent" step of `removeTaskAndDescendants`. -/
def innerRC (ta : GState) (id : String) : GState :=
  match jsParentGet ta id with
  | some p => removeChild ta p id
  | none => ta

theorem removeSelf_eq_innerRC (ta : GState) (id : String) :
    removeSelf ta id =
      ⟨alErase (innerRC ta id).parentMap id, alErase (innerRC ta id).childrenMap id⟩ := by
  unfold removeSelf innerRC
  cases jsParentGet ta id <;> rfl

theorem children_innerRC_sublist (ta : GState) (id q : String) :
    List.Sublist (getChildrenIds (innerRC ta id) q) (getChildrenIds ta q) := by
  unfold innerRC
  cases jsParentGet ta id with
  | some p =>
      rw [children_removeChild]
      by_cases hq : q = p
      · rw [if_pos hq, hq]
        exact List.erase_sublist _ _
      · rw [if_neg hq]
  | none => exact List.Sublist.refl _

theorem dropped_innerRC {ta : GState} {id q v : String}
    (hv : v ∈ getChildrenIds ta q) (hv' : v ∉ getChildrenIds (innerRC ta id) q) :
    v = id := by
  by_contra hne
  apply hv'
  unfold innerRC
  cases jsParentGet ta id with
  | some p =>
      rw [children_removeChild]
      by_cases hq : q = p
      · rw [if_pos hq]
        exact (List.mem_erase_of_ne hne).2 (hq ▸ hv)
      · rw [if_neg hq]
        exact hv
  | none => exact hv

theorem gMem_innerRC (ta : GState) (id x : String) :
    gMem (innerRC ta id) x ↔ gMem ta x := by
  unfold innerRC
  cases jsParentGet ta id with
  | some p => exact gMem_removeChild ta p id x
  | none => exact Iff.rfl

theorem keysNodup_innerRC {ta : GState} (h : keysNodup ta) (id : String) :
    keysNodup (innerRC ta id) := by
  unfold innerRC
  cases jsParentGet ta id with
  | some p => exact keysNodup_removeChild h p id
  | none => exact h

theorem children_removeSelf_eq (ta : GState) (hk : keysNodup ta) (id q : String) :
    getChildrenIds (removeSelf ta id) q =
      if q = id then [] else getChildrenIds (innerRC ta id) q := by
  rw [removeSelf_eq_innerRC]
  have hk2 := keysNodup_innerRC hk id
  by_cases hq : q = id
  · rw [if_pos hq]
    show (alLookup (alErase (innerRC ta id).childrenMap id) q).getD [] = []
    rw [hq, alLookup_alErase_self _ _ hk2.2]
    rfl
  · rw [if_neg hq]
    show (alLookup (alErase (innerRC ta id).childrenMap id) q).getD [] = _
    rw [alLookup_alErase_ne _ _ _ hq]
    rfl

theorem children_removeSelf_sublist (ta : GState) (hk : keysNodup ta) (id q : String) :
    List.Sublist (getChildrenIds (removeSelf ta id) q) (getChildrenIds ta q) := by
  rw [children_removeSelf_eq ta hk id q]
  by_cases hq : q = id
  · simp [hq]
  · simp only [hq, if_false]
    exact children_innerRC_sublist ta id q

theorem gMem_removeSelf (ta : GState) (hk : keysNodup ta) (id x : String) :
    gMem (removeSelf ta id) x ↔ gMem ta x ∧ x ≠ id := by
  rw [removeSelf_eq_innerRC]
  have hk2 := keysNodup_innerRC hk id
  by_cases hx : x = id
  · subst hx
    unfold gMem
    simp only
    rw [alLookup_alErase_self _ _ hk2.1, alLookup_alErase_self _ _ hk2.2]
    simp
  · unfold gMem
    simp only
    rw [alLookup_alErase_ne _ _ _ hx, alLookup_alErase_ne _ _ _ hx]
    have := gMem_innerRC ta id x
    unfold gMem at this
    rw [this]
    simp [hx]

theorem dropped_removeSelf {ta : GState} (hk : keysNodup ta) {id q v : String}
    (hv : v ∈ getChildrenIds ta q) (hv' : v ∉ getChildrenIds (removeSelf ta id) q) :
    v = id ∨ q = id := by
  rw [children_removeSelf_eq ta hk id q] at hv'
  by_cases hq : q = id
  · exact Or.inr hq
  · simp only [hq, if_false] at hv'
    exact Or.inl (dropped_innerRC hv hv')

/-- Invariant of a completed `removeManyFuel` run from `t` over worklist
`L`, ending in `t'` with removal log `r`:
children lists only shrink, graph membership only shrinks, every element
dropped from a children list was removed, every listed task was removed,
every logged id was reachable from the worklist at entry, removal is
closed under entry-state children, and nothing outside the log lost
membership. -/
structure RemInv (t : GState) (L : List String) (t' : GState) (r : List String) : Prop where
  sub : ∀ p, List.Sublist (getChildrenIds t' p) (getChildrenIds t p)
  memMono : ∀ x, gMem t' x → gMem t x
  dropped : ∀ p v, v ∈ getChildrenIds t p → v ∉ getChildrenIds t' p →
    v ∈ r ∧ ¬ gMem t' v
  roots : ∀ c ∈ L, ¬ gMem t' c ∧ c ∈ r
  reached : ∀ x ∈ r, ∃ c ∈ L, Reaches t c x
  closure : ∀ u ∈ r, ∀ v, v ∈ getChildrenIds t u → v ∈ r ∧ ¬ gMem t' v
  nodel : ∀ x, gMem t x → ¬ gMem t' x → x ∈ r

theorem remInv_nil (t : GState) : RemInv t [] t [] where
  sub := fun _ => List.Sublist.refl _
  memMono := fun _ h => h
  dropped := fun _ _ hv hv' => absurd hv hv'
  roots := fun c hc => absurd hc (List.not_mem_nil c)
  reached := fun x hx => absurd hx (List.not_mem_nil x)
  closure := fun u hu => absurd hu (List.not_mem_nil u)
  nodel := fun _ hg hg' => absurd hg hg'

theorem remInv_compose {t ta s4 : GState} {taskId : String} {rest rc rr : List String}
    (hka : keysNodup ta)
    (A : RemInv t (getChildrenIds t taskId) ta rc)
    (B : RemInv (removeSelf ta taskId) rest s4 rr) :
    RemInv t (taskId :: rest) s4 (rc ++ taskId :: rr) := by
  set s3 := removeSelf ta taskId with hs3
  have TS1 : ∀ q, List.Sublist (getChildrenIds s3 q) (getChildrenIds ta q) :=
    fun q => children_removeSelf_sublist ta hka taskId q
  have TS2 : ∀ x, gMem s3 x ↔ gMem ta x ∧ x ≠ taskId :=
    fun x => gMem_removeSelf ta hka taskId x
  have TS3 : ∀ q v, v ∈ getChildrenIds ta q → v ∉ getChildrenIds s3 q →
      v = taskId ∨ q = taskId :=
    fun q v hv hv' => dropped_removeSelf hka hv hv'
  have hS3toTA : ∀ x, gMem s3 x → gMem ta x := fun x h => ((TS2 x).1 h).1
  have hNotTA : ∀ x, ¬ gMem ta x → ¬ gMem s4 x :=
    fun x h hx => h (hS3toTA x (B.memMono x hx))
  have hNotS3 : ∀ x, ¬ gMem s3 x → ¬ gMem s4 x := fun x h hx => h (B.memMono x hx)
  have hNotS3Task : ¬ gMem s3 taskId := fun h => ((TS2 taskId).1 h).2 rfl
  have hMemMid : taskId ∈ rc ++ taskId :: rr :=
    List.mem_append_right _ (List.mem_cons_self _ _)
  have hMemL : ∀ {x}, x ∈ rc → x ∈ rc ++ taskId :: rr := fun h => List.mem_append_left _ h
  have hMemR : ∀ {x}, x ∈ rr → x ∈ rc ++ taskId :: rr :=
    fun h => List.mem_append_right _ (List.mem_cons_of_mem _ h)
  have hSubTa : ∀ q, getChildrenIds ta q ⊆ getChildrenIds t q :=
    fun q => (A.sub q).subset
  have hSubS3 : ∀ q, getChildrenIds s3 q ⊆ getChildrenIds t q :=
    fun q => ((TS1 q).subset).trans (hSubTa q)
  refine ⟨?_, ?_, ?_, ?_, ?_, ?_, ?_⟩
  · exact fun p => ((B.sub p).trans (TS1 p)).trans (A.sub p)
  · exact fun x hx => A.memMono x (hS3toTA x (B.memMono x hx))
  · intro p v hv hv4
    by_cases hta : v ∈ getChildrenIds ta p
    · by_cases hs3v : v ∈ getChildrenIds s3 p
      · obtain ⟨h1, h2⟩ := B.dropped p v hs3v hv4
        exact ⟨hMemR h1, h2⟩
      · rcases TS3 p v hta hs3v with hvt | hpt
        · subst hvt
          exact ⟨hMemMid, hNotS3 v hNotS3Task⟩
        · subst hpt
          obtain ⟨h1, h2⟩ := A.roots v (hSubTa p hta)
          exact ⟨hMemL h2, hNotTA v h1⟩
    · obtain ⟨h1, h2⟩ := A.dropped p v hv hta
      exact ⟨hMemL h1, hNotTA v h2⟩
  · intro c hc
    rcases List.mem_cons.1 hc with h | h
    · subst h
      exact ⟨hNotS3 c hNotS3Task, hMemMid⟩
    · obtain ⟨h1, h2⟩ := B.roots c h
      exact ⟨h1, hMemR h2⟩
  · intro x hx
    rcases List.mem_append.1 hx with h | h
    · obtain ⟨c, hc, hr'⟩ := A.reached x h
      exact ⟨taskId, List.mem_cons_self _ _, Relation.ReflTransGen.head hc hr'⟩
    · rcases List.mem_cons.1 h with h1 | h1
      · subst h1
        exact ⟨x, List.mem_cons_self _ _, Relation.ReflTransGen.refl⟩
      · obtain ⟨c, hc, hr'⟩ := B.reached x h1
        exact ⟨c, List.mem_cons_of_mem _ hc, reaches_mono hSubS3 hr'⟩
  · intro u hu v hv
    rcases List.mem_append.1 hu with h | h
    · obtain ⟨h1, h2⟩ := A.closure u h v hv
      exact ⟨hMemL h1, hNotTA v h2⟩
    · rcases List.mem_cons.1 h with h1 | h1
      · subst h1
        obtain ⟨h1, h2⟩ := A.roots v hv
        exact ⟨hMemL h2, hNotTA v h1⟩
      · by_cases hvs3 : v ∈ getChildrenIds s3 u
        · obtain ⟨h2, h3⟩ := B.closure u h1 v hvs3
          exact ⟨hMemR h2, h3⟩
        · by_cases hvta : v ∈ getChildrenIds ta u
          · rcases TS3 u v hvta hvs3 with hvt | hut
            · subst hvt
              exact ⟨hMemMid, hNotS3 v hNotS3Task⟩
            · subst hut
              obtain ⟨h2, h3⟩ := A.roots v (hSubTa u hvta)
              exact ⟨hMemL h3, hNotTA v h2⟩
          · obtain ⟨h2, h3⟩ := A.dropped u v hv hvta
            exact ⟨hMemL h2, hNotTA v h3⟩
  · intro x hg hg4
    by_cases hgta : gMem ta x
    · by_cases hgs3 : gMem s3 x
      · exact hMemR (B.nodel x hgs3 hg4)
      · have hx : x = taskId := by
          by_contra hne
          exact hgs3 ((TS2 x).2 ⟨hgta, hne⟩)
        subst hx
        exact hMemMid
    · exact hMemL (A.nodel x hg hgta)

theorem removeMany_inv : ∀ {n : Nat} {t : GState} {L : List String} {t' : GState}
    {r : List String}, keysNodup t → removeManyFuel n t L = some (t', r) →
    RemInv t L t' r ∧ keysNodup t' := by
  intro n
  induction n with
  | zero =>
      intro t L t' r hk hrun
      unfold removeManyFuel at hrun
      split at hrun
      · rename_i hL
        rw [List.isEmpty_iff] at hL
        subst hL
        injection hrun with h1
        have ht' : t = t' := congrArg Prod.fst h1
        have hr' : ([] : List String) = r := congrArg Prod.snd h1
        subst ht'
        subst hr'
        exact ⟨remInv_nil t, hk⟩
      · cases hrun
  | succ n ih =>
      intro t L t' r hk hrun
      cases L with
      | nil =>
          unfold removeManyFuel at hrun
          injection hrun with h1
          have ht' : t = t' := congrArg Prod.fst h1
          have hr' : ([] : List String) = r := congrArg Prod.snd h1
          subst ht'
          subst hr'
          exact ⟨remInv_nil t, hk⟩
      | cons taskId rest =>
          simp only [removeManyFuel, Option.bind_eq_bind, Option.bind_eq_some] at hrun
          obtain ⟨⟨ta, rc⟩, h1, ⟨⟨s4, rr⟩, h4, heq⟩⟩ := hrun
          injection heq with h5
          have ht' : s4 = t' := congrArg Prod.fst h5
          have hr' : rc ++ taskId :: rr = r := congrArg Prod.snd h5
          subst ht'
          subst hr'
          obtain ⟨A, hka⟩ := ih hk h1
          obtain ⟨B, hk4⟩ := ih (keysNodup_removeSelf hka taskId) h4
          exact ⟨remInv_compose hka A B, hk4⟩

/-- A completed `descManyFuel` run computes exactly the set of tasks
reachable from the worklist through the children map. -/
theorem descMany_chars : ∀ {n : Nat} {t : GState} {L d : List String},
    descManyFuel n t L = some d → ∀ x, (x ∈ d ↔ ∃ c ∈ L, Reaches t c x) := by
  intro n
  induction n with
  | zero =>
      intro t L d hd x
      unfold descManyFuel at hd
      split at hd
      · rename_i hL
        rw [List.isEmpty_iff] at hL
        subst hL
        injection hd with h1
        subst h1
        simp
      · cases hd
  | succ n ih =>
      intro t L d hd x
      cases L with
      | nil =>
          unfold descManyFuel at hd
          injection hd with h1
          subst h1
          simp
      | cons c rest =>
          simp only [descManyFuel, Option.bind_eq_bind, Option.bind_eq_some] at hd
          obtain ⟨d1, hd1, d2, hd2, heq⟩ := hd
          injection heq with h5
          subst h5
          have IH1 := ih hd1
          have IH2 := ih hd2
          constructor
          · intro hx
            rcases List.mem_cons.1 hx with h | h
            · subst h
              exact ⟨x, List.mem_cons_self _ _, Relation.ReflTransGen.refl⟩
            · rcases List.mem_append.1 h with h1 | h1
              · obtain ⟨c', hc', hr'⟩ := ((IH1 x).1 h1)
                exact ⟨c, List.mem_cons_self _ _, Relation.ReflTransGen.head hc' hr'⟩
              · obtain ⟨c', hc', hr'⟩ := ((IH2 x).1 h1)
                exact ⟨c', List.mem_cons_of_mem _ hc', hr'⟩
          · rintro ⟨c', hc', hr'⟩
            rcases List.mem_cons.1 hc' with h | h
            · subst h
              rcases Relation.ReflTransGen.cases_head hr' with h1 | ⟨b, hb, hr2⟩
              · exact List.mem_cons.2 (Or.inl h1.symm)
              · refine List.mem_cons.2 (Or.inr (List.mem_append.2 (Or.inl ?_)))
                exact (IH1 x).2 ⟨b, hb, hr2⟩
            · refine List.mem_cons.2 (Or.inr (List.mem_append.2 (Or.inr ?_)))
              exact (IH2 x).2 ⟨c', h, hr'⟩

/-- C4.  Whenever both calls complete (the shared recursion diverges on
cyclic maps, see C8), `removeTaskAndDescendants(id)` returns exactly the
set of ids that `getAllDescendantIds(id)` computes on the pre-state, and
afterwards exactly those tasks — and no other — are gone from the graph. -/
theorem removeTaskAndDescendants_spec (s : GState) (id : String) (n k : Nat)
    (ds rs : List String) (s' : GState)
    (hwf : keysNodup s)
    (hd : getAllDescendantIdsFuel n s id = some ds)
    (hr : removeTaskAndDescendantsFuel k s id = some (s', rs)) :
    (∀ x, x ∈ rs ↔ x ∈ ds) ∧ (∀ x, gMem s' x ↔ (gMem s x ∧ x ∉ ds)) := by
  have hds : ∀ x, x ∈ ds ↔ Reaches s id x := by
    intro x
    have hch := @descMany_chars n s [id] ds hd x
    rw [hch]
    constructor
    · rintro ⟨c, hc, hr'⟩
      rw [List.mem_singleton] at hc
      subst hc
      exact hr'
    · intro h
      exact ⟨id, List.mem_singleton.2 rfl, h⟩
  have hr' : removeManyFuel k s [id] = some (s', rs) := hr
  obtain ⟨A, _⟩ := removeMany_inv hwf hr'
  have hroot := A.roots id (List.mem_singleton.2 rfl)
  have hpath : ∀ x, Reaches s id x → x ∈ rs ∧ ¬ gMem s' x := by
    intro x hx
    induction hx with
    | refl => exact ⟨hroot.2, hroot.1⟩
    | tail _ hstep ih => exact (A.closure _ ih.1 _ hstep)
  constructor
  · intro x
    constructor
    · intro hx
      rw [hds]
      obtain ⟨c, hc, hrx⟩ := A.reached x hx
      rw [List.mem_singleton] at hc
      subst hc
      exact hrx
    · intro hx
      exact (hpath x ((hds x).1 hx)).1
  · intro x
    constructor
    · intro hx
      refine ⟨A.memMono x hx, fun hmem => ?_⟩
      exact (hpath x ((hds x).1 hmem)).2 hx
    · rintro ⟨hg, hnmem⟩
      by_contra h0
      obtain ⟨c, hc, hrx⟩ := A.reached x (A.nodel x hg h0)
      rw [List.mem_singleton] at hc
      subst hc
      exact hnmem ((hds x).2 hrx)

/-- Concrete graph for the C4 witness: chain `a → b → c`. -/
def chainG : GState :=
  ⟨[("a", none), ("b", some "a"), ("c", some "b")], [("a", ["b"]), ("b", ["c"])]⟩

/-- Closed instance of C4 on `chainG`: removing `a` returns `{a, b, c}`,
the set `getAllDescendantIds "a"` computed beforehand, and empties the
graph. -/
theorem removeTaskAndDescendants_spec_witness :
    (∀ x, x ∈ ["c", "b", "a"] ↔ x ∈ ["a", "b", "c"]) ∧
    (∀ x, gMem (⟨[], []⟩ : GState) x ↔ (gMem chainG x ∧ x ∉ ["a", "b", "c"])) :=
  removeTaskAndDescendants_spec chainG "a" 3 3 ["a", "b", "c"] ["c", "b", "a"]
    (⟨[], []⟩ : GState) (by decide) (by decide) (by decide)

/-! ## Claim C5: `sortedTasks` / `sortedByDeadline`

Model of the tasks-store getter `sortedTasks` (`src/stores/tasks.ts`).
A task is represented by its identity and optional `endDate`
(`Date.getTime()` value); the comparator is a direct translation of
`existsOrCompare` (a present `Date` is always truthy).  ECMAScript
requires `Array.prototype.sort` to produce an array sorted with respect
to the comparator, which for this consistent comparator determines the
result up to ties; insertion sort realises that contract. -/

structure SortTask where
  id : String
  endDate : Option Int
deriving DecidableEq, Repr

/-- `existsOrCompare(v1, v2, fn)`: `1` when only `v1` exists, `-1` when
only `v2` exists, `undefined` when neither does, else `fn(v1, v2)`. -/
def existsOrCompare (v1 v2 : Option Int) (fn : Int → Int → Int) : Option Int :=
  match v1, v2 with
  | some a, none => some 1
  | none, some b => some (-1)
  | none, none => none
  | some a, some b => some (fn a b)

/-- The `sortedTasks` comparator:
`existsOrCompare(a.endDate, b.endDate, (v1, v2) => v1.getTime() - v2.getTime()) ?? 0`. -/
def sortCmp (a b : SortTask) : Int :=
  (existsOrCompare a.endDate b.endDate (fun v1 v2 => v1 - v2)).getD 0

/-- Stable insertion respecting the comparator. -/
def sortInsert (x : SortTask) : List SortTask → List SortTask
  | [] => [x]
  | y :: ys => if sortCmp x y ≤ 0 then x :: y :: ys else y :: sortInsert x ys

/-- `sortedTasks`: `[...tasks].sort(comparator)`. -/
def sortedTasks (l : List SortTask) : List SortTask :=
  l.foldr sortInsert []

/-- The total preorder the comparator encodes: tasks without an `endDate`
come first, tasks with one are ordered by it. -/
def deadlineLE (a b : SortTask) : Prop :=
  match a.endDate, b.endDate with
  | none, _ => True
  | some _, none => False
  | some x, some y => x ≤ y

instance (a b : SortTask) : Decidable (deadlineLE a b) := by
  unfold deadlineLE
  cases a.endDate <;> cases b.endDate <;> infer_instance

theorem sortCmp_le_iff (a b : SortTask) : sortCmp a b ≤ 0 ↔ deadlineLE a b := by
  unfold sortCmp existsOrCompare deadlineLE
  cases a.endDate <;> cases b.endDate <;> simp <;> omega

theorem deadlineLE_total (a b : SortTask) : deadlineLE a b ∨ deadlineLE b a := by
  unfold deadlineLE
  cases a.endDate <;> cases b.endDate <;> simp <;> omega

theorem deadlineLE_trans {a b c : SortTask} (h1 : deadlineLE a b) (h2 : deadlineLE b c) :
    deadlineLE a c := by
  unfold deadlineLE at h1 h2 ⊢
  cases ha : a.endDate with
  | none => cases hc : c.endDate <;> trivial
  | some x =>
      rw [ha] at h1
      cases hb : b.endDate with
      | none =>
          rw [hb] at h1
          exact h1.elim
      | some y =>
          rw [hb] at h1 h2
          cases hc : c.endDate with
          | none =>
              rw [hc] at h2
              exact h2.elim
          | some z =>
              rw [hc] at h2
              exact le_trans h1 h2

theorem sortInsert_perm (x : SortTask) (l : List SortTask) :
    (sortInsert x l).Perm (x :: l) := by
  induction l with
  | nil => exact List.Perm.refl _
  | cons y ys ih =>
      unfold sortInsert
      by_cases h : sortCmp x y ≤ 0
      · rw [if_pos h]
      · rw [if_neg h]
        exact (List.Perm.cons y ih).trans (List.Perm.swap x y ys)

theorem sortedTasks_perm (l : List SortTask) : (sortedTasks l).Perm l := by
  induction l with
  | nil => exact List.Perm.refl _
  | cons x xs ih =>
      show (sortInsert x (sortedTasks xs)).Perm (x :: xs)
      exact (sortInsert_perm x (sortedTasks xs)).trans (List.Perm.cons x ih)

theorem mem_sortInsert {z x : SortTask} {l : List SortTask}
    (h : z ∈ sortInsert x l) : z = x ∨ z ∈ l :=
  List.mem_cons.1 ((sortInsert_perm x l).subset h)

theorem pairwise_sortInsert (x : SortTask) (l : List SortTask)
    (h : l.Pairwise deadlineLE) : (sortInsert x l).Pairwise deadlineLE := by
  induction l with
  | nil => simp [sortInsert]
  | cons y ys ih =>
      rw [List.pairwise_cons] at h
      unfold sortInsert
      by_cases hc : sortCmp x y ≤ 0
      · rw [if_pos hc]
        rw [sortCmp_le_iff] at hc
        refine List.pairwise_cons.2 ⟨?_, List.pairwise_cons.2 h⟩
        intro z hz
        rcases List.mem_cons.1 hz with h1 | h1
        · exact h1 ▸ hc
        · exact deadlineLE_trans hc (h.1 z h1)
      · rw [if_neg hc]
        rw [sortCmp_le_iff] at hc
        have hyx : deadlineLE y x := (deadlineLE_total x y).resolve_left hc
        refine List.pairwise_cons.2 ⟨?_, ih h.2⟩
        intro z hz
        rcases mem_sortInsert hz with h1 | h1
        · exact h1 ▸ hyx
        · exact h.1 z h1

theorem sortedTasks_pairwise (l : List SortTask) :
    (sortedTasks l).Pairwise deadlineLE := by
  induction l with
  | nil => simp [sortedTasks]
  | cons x xs ih => exact pairwise_sortInsert x (sortedTasks xs) ih

/-- C5 (counterexample).  The claim says every task without a deadline
appears after every task with one.  Sorting the two-element list
`[t1 (deadline), t2 (no deadline)]` puts the deadline-less `t2` first:
the comparator returns `1` for `(t1, t2)`, so every conforming sort must
place `t2` before `t1` — the order is inverted relative to the claim. -/
theorem sortedTasks_noDeadline_first_counterexample :
    sortedTasks [⟨"t1", some 10⟩, ⟨"t2", none⟩] =
      [⟨"t2", none⟩, ⟨"t1", some 10⟩] ∧
    sortCmp ⟨"t1", some 10⟩ ⟨"t2", none⟩ = 1 ∧
    (⟨"t2", none⟩ : SortTask).endDate = none ∧
    (⟨"t1", some 10⟩ : SortTask).endDate ≠ none := by
  refine ⟨?_, by decide, rfl, by decide⟩
  decide

/-- C5 (amended).  `sortedTasks` permutes the input so that every task
without a deadline appears *before* every task with one (the comparator
is inverted with respect to the spec), and tasks with deadlines are in
ascending deadline order. -/
theorem sortedTasks_spec (l : List SortTask) :
    (sortedTasks l).Perm l ∧
    (sortedTasks l).Pairwise (fun a b =>
      (b.endDate = none → a.endDate = none) ∧
      (∀ x y, a.endDate = some x → b.endDate = some y → x ≤ y)) := by
  refine ⟨sortedTasks_perm l, (sortedTasks_pairwise l).imp ?_⟩
  intro a b hab
  unfold deadlineLE at hab
  constructor
  · intro hb
    cases ha : a.endDate with
    | none => rfl
    | some x =>
        rw [ha, hb] at hab
        exact absurd hab not_false
  · intro x y hx hy
    rw [hx, hy] at hab
    exact hab

/-! ## Claim C6: the Local Store's `saveTask` / `markAsSynced`
(`src/storage/local/indexeddb-storage.ts`)

The IndexedDB object store is keyed by `url`; `put` replaces the record
at the key.  ISO-string timestamps are modelled by their
`Date.getTime()` value. -/

/-- Per-record sync status stored in the Local Store. -/
inductive SyncFlag where
  | synced
  | pending
  | conflict
deriving DecidableEq, Repr

/-- The task fields carried by a record (everything except the key and
the sync metadata). -/
structure TaskFields where
  title : String
  description : Option String
  priority : Option Int
  dateCreated : Option Int
  startDate : Option Int
  endDate : Option Int
  status : Option String
  subTaskUrls : Option (List String)
  parentTaskUrl : Option String
deriving DecidableEq, Repr

/-- One row of the `tasks` object store. -/
structure LocalEntry where
  url : String
  fields : TaskFields
  lastModified : Int
  syncStatus : SyncFlag
deriving DecidableEq, Repr

/-- `get(url)`: the record at the key. -/
def storeLookup : List LocalEntry → String → Option LocalEntry
  | [], _ => none
  | e :: rest, u => if e.url = u then some e else storeLookup rest u

/-- `put(record)`: replace the record at its key, else append. -/
def putEntry : List LocalEntry → LocalEntry → List LocalEntry
  | [], e => [e]
  | x :: rest, e => if x.url = e.url then e :: rest else x :: putEntry rest e

/-- `delete(url)`. -/
def delEntry : List LocalEntry → String → List LocalEntry
  | [], _ => []
  | x :: rest, u => if x.url = u then rest else x :: delEntry rest u

/-- `saveTask(task)`: builds the stored record field by field, always
stamping `lastModified: new Date().toISOString()` and
`syncStatus: 'pending'` — whatever metadata the caller's object carried
is ignored. -/
def saveTask (now : Int) (st : List LocalEntry) (t : LocalEntry) : List LocalEntry :=
  putEntry st { url := t.url, fields := t.fields, lastModified := now,
                syncStatus := SyncFlag.pending }

/-- `markAsSynced(url)`: flip the stored record's status to `'synced'`,
a no-op when the key is absent. -/
def markAsSynced (st : List LocalEntry) (url : String) : List LocalEntry :=
  match storeLookup st url with
  | some t => putEntry st { t with syncStatus := SyncFlag.synced }
  | none => st

theorem storeLookup_putEntry_self (st : List LocalEntry) (e : LocalEntry) :
    storeLookup (putEntry st e) e.url = some e := by
  induction st with
  | nil => simp [putEntry, storeLookup]
  | cons x rest ih =>
      by_cases hx : x.url = e.url <;> simp [putEntry, storeLookup, hx, ih]

theorem storeLookup_putEntry_ne (st : List LocalEntry) (e : LocalEntry) (u : String)
    (h : u ≠ e.url) : storeLookup (putEntry st e) u = storeLookup st u := by
  have h' : ¬ e.url = u := fun hh => h hh.symm
  induction st with
  | nil => simp [putEntry, storeLookup, h']
  | cons x rest ih =>
      by_cases hx : x.url = e.url
      · rw [putEntry, if_pos hx]
        rw [storeLookup, storeLookup, if_neg h', if_neg (hx ▸ h')]
      · rw [putEntry, if_neg hx]
        by_cases hxu : x.url = u <;> simp [storeLookup, hxu, ih]

theorem storeLookup_url : ∀ {st : List LocalEntry} {u : String} {t : LocalEntry},
    storeLookup st u = some t → t.url = u := by
  intro st
  induction st with
  | nil => intro u t h; simp [storeLookup] at h
  | cons x rest ih =>
      intro u t h
      by_cases hx : x.url = u
      · rw [storeLookup, if_pos hx] at h
        injection h with h1
        exact h1 ▸ hx
      · rw [storeLookup, if_neg hx] at h
        exact ih h

theorem storeLookup_markAsSynced (st : List LocalEntry) (u : String) :
    storeLookup (markAsSynced st u) u =
      (storeLookup st u).map (fun e => { e with syncStatus := SyncFlag.synced }) := by
  unfold markAsSynced
  cases hl : storeLookup st u with
  | none => simp [hl]
  | some t =>
      have hu : t.url = u := storeLookup_url hl
      rw [← hu]
      exact storeLookup_putEntry_self st { t with syncStatus := SyncFlag.synced }

/-- C6.  Every record written through the Local Store's `saveTask` is
stored with `syncStatus = 'pending'` and `lastModified` stamped to the
current time, regardless of the metadata the caller supplied on its
object; the `'synced'` status only arises through an explicit
`markAsSynced`, which flips exactly the status of the stored record. -/
theorem saveTask_forces_pending (st : List LocalEntry) (t : LocalEntry) (now : Int) :
    storeLookup (saveTask now st t) t.url =
      some { url := t.url, fields := t.fields, lastModified := now,
             syncStatus := SyncFlag.pending } ∧
    (∀ u, u ≠ t.url → storeLookup (saveTask now st t) u = storeLookup st u) ∧
    (∀ u, storeLookup (markAsSynced st u) u =
      (storeLookup st u).map (fun e => { e with syncStatus := SyncFlag.synced })) := by
  refine ⟨?_, ?_, fun u => storeLookup_markAsSynced st u⟩
  · exact storeLookup_putEntry_self st _
  · intro u hu
    exact storeLookup_putEntry_ne st _ u hu

/-! ## Sync Engine (`src/storage/sync/sync-service.ts`, the redesigned
three-phase `sync()` the spec's §4.5 describes)

The success path of one `sync()` run is modelled as a pure function.
Remote calls are modelled by their effect on the remote collection; the
server assigns the url of the `k`-th `create` of the run as `genUrl k`.
All `saveTask` calls of the run use the same current time `now` (the
merge only compares snapshot timestamps, never the ones written during
the run).  The `lastSyncTime` metadata slot is not modelled: no claim
reads it. -/

/-- A task in the remote collection (soukai `Task` model) with the
server-maintained timestamps the merge reads. -/
structure RemoteTask where
  url : String
  fields : TaskFields
  createdAt : Option Int
  updatedAt : Option Int
deriving DecidableEq, Repr

/-- JS `x?.getTime() || y`: the fallback fires both when the date is
missing and when it is the falsy epoch value `0`. -/
def jsOrTime (o : Option Int) (d : Int) : Int :=
  match o with
  | none => d
  | some x => if x = 0 then d else x

/-- `remoteTask.updatedAt?.getTime() || remoteTask.createdAt?.getTime() || 0`. -/
def remoteTime (rt : RemoteTask) : Int :=
  jsOrTime rt.updatedAt (jsOrTime rt.createdAt 0)

/-- `url.startsWith('temp:')`, phrased over the character list so that it
evaluates by kernel reduction. -/
def isTempUrl (u : String) : Bool := u.data.take 5 == "temp:".data

/-- `new Map(list.map(t => [t.url, t])).get(u)`: later duplicates shadow
earlier ones, hence the reversed first-match. -/
def remoteMapGet (l : List RemoteTask) (u : String) : Option RemoteTask :=
  l.reverse.find? (fun t => t.url == u)

/-- `localTaskMap.get(u)` over the snapshot of local tasks. -/
def localMapGet (l : List LocalEntry) (u : String) : Option LocalEntry :=
  l.reverse.find? (fun t => t.url == u)

/-- Remote record carrying the given url, as `Task.find`-style first match. -/
def remoteFind (rem : List RemoteTask) (u : String) : Option RemoteTask :=
  rem.find? (fun t => t.url == u)

/-- `mergeAndUpdate`'s local-wins write: every field except the creation
date is overwritten with the local value before `remoteTask.save()`. -/
def pushFields (lf rf : TaskFields) : TaskFields :=
  { lf with dateCreated := rf.dateCreated }

/-- Effect of `remoteTask.save()` on the collection: the record with that
url now carries the new fields. -/
def remoteUpdate (rem : List RemoteTask) (u : String) (f : TaskFields) : List RemoteTask :=
  rem.map fun rt => if rt.url = u then { rt with fields := f } else rt

/-- `saveTask` with the record assembled from a url and fields (the form
every sync-engine call site uses). -/
def saveFields (now : Int) (st : List LocalEntry) (u : String) (f : TaskFields) :
    List LocalEntry :=
  putEntry st { url := u, fields := f, lastModified := now, syncStatus := SyncFlag.pending }

/-- `syncRemoteToLocal(remoteTask)` = `saveTask` + `markAsSynced`. -/
def syncRemoteToLocal (now : Int) (st : List LocalEntry) (rt : RemoteTask) :
    List LocalEntry :=
  markAsSynced (saveFields now st rt.url rt.fields) rt.url

/-- State threaded through one `sync()` run: Local Store contents, remote
collection, the `urlMapping` of Phases 1–2, the number of creates issued
so far, and a log of the `create` calls (source temp url, fields sent). -/
structure SyncRun where
  store : List LocalEntry
  remote : List RemoteTask
  mapping : List (String × String)
  ctr : Nat
  creates : List (String × TaskFields)
deriving Repr

/-- Phase 1, one local task: create new tasks remotely, merge pending
tasks present on both sides by last-write-wins, and honour remote
deletions — the second `deleteTask` is unconditional, so a `pending`
entry whose remote record vanished is also removed. -/
def phase1Step (now : Int) (genUrl : Nat → String) (rsnap : List RemoteTask)
    (st : SyncRun) (t : LocalEntry) : SyncRun :=
  if isTempUrl t.url then
    { st with
      remote := st.remote ++
        [{ url := genUrl st.ctr, fields := t.fields, createdAt := none, updatedAt := none }],
      mapping := st.mapping ++ [(t.url, genUrl st.ctr)],
      ctr := st.ctr + 1,
      creates := st.creates ++ [(t.url, t.fields)] }
  else
    match remoteMapGet rsnap t.url with
    | some rt =>
        if t.syncStatus = SyncFlag.pending then
          if t.lastModified > remoteTime rt then
            { st with remote := remoteUpdate st.remote rt.url (pushFields t.fields rt.fields) }
          else
            { st with store := syncRemoteToLocal now st.store rt }
        else st
    | none =>
        { st with store :=
            delEntry (if t.syncStatus = SyncFlag.synced then delEntry st.store t.url
                      else st.store) t.url }

/-- Phase 2, one `urlMapping` pair: re-key the entry found in the local
snapshot, then mark the new key synced. -/
def phase2Step (now : Int) (lsnap : List LocalEntry) (st : SyncRun)
    (pr : String × String) : SyncRun :=
  match lsnap.find? (fun t => t.url == pr.1) with
  | some lt =>
      { st with store := markAsSynced (saveFields now (delEntry st.store pr.1) pr.2 lt.fields) pr.2 }
  | none => st

/-- Phase 3, one remote task: skip urls just created in Phase 2, pull
unknown tasks, refresh `synced` entries when the remote is strictly
newer, and leave `pending` entries alone (Phase 1 already resolved them). -/
def phase3Step (now : Int) (mapVals : List String) (lsnap : List LocalEntry)
    (st : SyncRun) (rt : RemoteTask) : SyncRun :=
  if rt.url ∈ mapVals then st
  else
    match localMapGet lsnap rt.url with
    | none => { st with store := syncRemoteToLocal now st.store rt }
    | some lt =>
        if lt.syncStatus = SyncFlag.synced then
          if remoteTime rt > lt.lastModified then
            { st with store := syncRemoteToLocal now st.store rt }
          else st
        else st

/-- Phase 4: mark every remaining non-`temp:` entry synced. -/
def phase4 (store : List LocalEntry) : List LocalEntry :=
  store.foldl (fun s t => if isTempUrl t.url then s else markAsSynced s t.url) store

/-- One successful `sync()` run over the initial Local Store contents and
the remote snapshot. -/
def syncRun (now : Int) (genUrl : Nat → String) (store0 : List LocalEntry)
    (remote0 : List RemoteTask) : SyncRun :=
  let st1 := store0.foldl (phase1Step now genUrl remote0) ⟨store0, remote0, [], 0, []⟩
  let st2 := st1.mapping.foldl (phase2Step now store0) st1
  let st3 := remote0.foldl (phase3Step now (st2.mapping.map Prod.snd) store0) st2
  { st3 with store := phase4 st3.store }

/-- `SyncService.deleteTask(taskUrl)`: local delete first; the remote
delete (only attempted when a remote service is attached and the key is
not a `temp:` placeholder) is wrapped in `try`/`catch` — a failure is
logged and swallowed.  The `Except` result is the method's own outcome. -/
def svcDeleteTask (localSt : List LocalEntry)
    (remote : Option (String → Except String Unit)) (taskUrl : String) :
    Except String (List LocalEntry) :=
  let local1 := delEntry localSt taskUrl
  match remote with
  | some rdel =>
      if ¬ isTempUrl taskUrl then
        match rdel taskUrl with
        | Except.ok _ => Except.ok local1
        | Except.error _ => Except.ok local1
      else Except.ok local1
  | none => Except.ok local1

/-- A minimal fields record used by the concrete examples. -/
def mkFields (title : String) : TaskFields :=
  ⟨title, none, none, none, none, none, none, none, none⟩

def exGen : Nat → String := fun k => "https://pod/tasks/gen" ++ toString k

-- Spec scenario 5: a `synced` task deleted remotely disappears locally.
example :
    (syncRun 100 exGen [⟨"https://pod/tasks/e", mkFields "E", 5, SyncFlag.synced⟩] []).store
      = [] := by decide

-- Phase 1 deletion also discards a `pending` entry (C1).
example :
    (syncRun 100 exGen [⟨"https://pod/tasks/e", mkFields "E", 5, SyncFlag.pending⟩] []).store
      = [] := by decide

-- Spec scenario 1 / C3: a `temp:` task is created remotely, re-keyed and
-- marked synced.
example :
    (syncRun 100 exGen [⟨"temp:1", mkFields "A", 5, SyncFlag.pending⟩] []).store
      = [⟨"https://pod/tasks/gen0", mkFields "A", 100, SyncFlag.synced⟩] ∧
    (syncRun 100 exGen [⟨"temp:1", mkFields "A", 5, SyncFlag.pending⟩] []).remote
      = [⟨"https://pod/tasks/gen0", mkFields "A", none, none⟩] ∧
    (syncRun 100 exGen [⟨"temp:1", mkFields "A", 5, SyncFlag.pending⟩] []).creates
      = [("temp:1", mkFields "A")] := by
  refine ⟨?_, ?_, ?_⟩ <;> decide

-- Spec scenario 4 / C2: local `pending` at 12 beats remote `updatedAt` 11;
-- the remote record receives the local fields and the local entry ends
-- `synced`.
example :
    (syncRun 100 exGen [⟨"https://pod/t/d", mkFields "Foo", 12, SyncFlag.pending⟩]
        [⟨"https://pod/t/d", mkFields "Bar", some 5, some 11⟩]).remote
      = [⟨"https://pod/t/d", mkFields "Foo", some 5, some 11⟩] ∧
    (syncRun 100 exGen [⟨"https://pod/t/d", mkFields "Foo", 12, SyncFlag.pending⟩]
        [⟨"https://pod/t/d", mkFields "Bar", some 5, some 11⟩]).store
      = [⟨"https://pod/t/d", mkFields "Foo", 12, SyncFlag.synced⟩] := by
  refine ⟨?_, ?_⟩ <;> decide

-- Spec scenario 3: remote strictly newer than a `synced` local entry
-- overwrites it in Phase 3.
example :
    (syncRun 100 exGen [⟨"https://pod/t/c", mkFields "Old", 9, SyncFlag.synced⟩]
        [⟨"https://pod/t/c", mkFields "New", some 5, some 11⟩]).store
      = [⟨"https://pod/t/c", mkFields "New", 100, SyncFlag.synced⟩] := by decide

-- Spec scenario 2: an unknown remote task is pulled and marked synced.
example :
    (syncRun 100 exGen [] [⟨"https://pod/t/b", mkFields "B", some 5, some 10⟩]).store
      = [⟨"https://pod/t/b", mkFields "B", 100, SyncFlag.synced⟩] := by decide

/-! ## Store-key bookkeeping and Claim C10 -/

def storeKeys (st : List LocalEntry) : List String := st.map LocalEntry.url

/-- A real IndexedDB store: one record per key. -/
def SNodup (st : List LocalEntry) : Prop := (storeKeys st).Nodup

instance (st : List LocalEntry) : Decidable (SNodup st) := by
  unfold SNodup; infer_instance

theorem storeKeys_cons (e : LocalEntry) (st : List LocalEntry) :
    storeKeys (e :: st) = e.url :: storeKeys st := rfl

theorem storeLookup_none_of_not_mem {st : List LocalEntry} {u : String}
    (h : u ∉ storeKeys st) : storeLookup st u = none := by
  induction st with
  | nil => rfl
  | cons x rest ih =>
      rw [storeKeys_cons, List.mem_cons] at h
      push_neg at h
      rw [storeLookup, if_neg (fun hh => h.1 hh.symm)]
      exact ih h.2

theorem mem_storeKeys_of_lookup {st : List LocalEntry} {u : String} {e : LocalEntry}
    (h : storeLookup st u = some e) : u ∈ storeKeys st := by
  induction st with
  | nil => cases h
  | cons x rest ih =>
      by_cases hx : x.url = u
      · rw [storeKeys_cons, List.mem_cons]
        exact Or.inl hx.symm
      · rw [storeLookup, if_neg hx] at h
        rw [storeKeys_cons, List.mem_cons]
        exact Or.inr (ih h)

theorem storeLookup_delEntry_ne (st : List LocalEntry) (u u' : String)
    (h : u ≠ u') : storeLookup (delEntry st u') u = storeLookup st u := by
  induction st with
  | nil => rfl
  | cons x rest ih =>
      by_cases hx : x.url = u'
      · rw [delEntry, if_pos hx, storeLookup, if_neg (fun hh => h (hh.symm.trans hx))]
      · rw [delEntry, if_neg hx]
        by_cases hxu : x.url = u
        · rw [storeLookup, if_pos hxu, storeLookup, if_pos hxu]
        · rw [storeLookup, if_neg hxu, storeLookup, if_neg hxu, ih]

theorem storeLookup_delEntry_self (st : List LocalEntry) (u : String)
    (h : SNodup st) : storeLookup (delEntry st u) u = none := by
  induction st with
  | nil => rfl
  | cons x rest ih =>
      rw [SNodup, storeKeys_cons, List.nodup_cons] at h
      by_cases hx : x.url = u
      · rw [delEntry, if_pos hx]
        exact storeLookup_none_of_not_mem (hx ▸ h.1)
      · rw [delEntry, if_neg hx, storeLookup, if_neg hx]
        exact ih h.2

theorem storeKeys_delEntry_sublist (st : List LocalEntry) (u : String) :
    List.Sublist (storeKeys (delEntry st u)) (storeKeys st) := by
  induction st with
  | nil => exact List.Sublist.refl _
  | cons x rest ih =>
      by_cases hx : x.url = u
      · rw [delEntry, if_pos hx, storeKeys_cons]
        exact List.sublist_cons_self _ _
      · rw [delEntry, if_neg hx, storeKeys_cons, storeKeys_cons]
        exact List.Sublist.cons₂ _ ih

theorem snodup_delEntry {st : List LocalEntry} (h : SNodup st) (u : String) :
    SNodup (delEntry st u) :=
  List.Nodup.sublist (storeKeys_delEntry_sublist st u) h

theorem snodup_putEntry {st : List LocalEntry} (h : SNodup st) (e : LocalEntry) :
    SNodup (putEntry st e) := by
  induction st with
  | nil => simpa [putEntry, SNodup, storeKeys] using List.nodup_singleton e.url
  | cons x rest ih =>
      rw [SNodup, storeKeys_cons, List.nodup_cons] at h
      by_cases hx : x.url = e.url
      · rw [putEntry, if_pos hx, SNodup, storeKeys_cons, List.nodup_cons]
        exact ⟨hx ▸ h.1, h.2⟩
      · rw [putEntry, if_neg hx, SNodup, storeKeys_cons, List.nodup_cons]
        refine ⟨fun hmem => ?_, ih h.2⟩
        -- keys after a put are the old keys possibly extended by `e.url`
        have : ∀ {st' : List LocalEntry}, x.url ∈ storeKeys (putEntry st' e) →
            x.url ∈ storeKeys st' ∨ x.url = e.url := by
          intro st'
          induction st' with
          | nil => intro hm; simpa [putEntry, storeKeys] using hm
          | cons y rest' ih' =>
              intro hm
              by_cases hy : y.url = e.url
              · rw [putEntry, if_pos hy, storeKeys_cons, List.mem_cons] at hm
                rcases hm with hm | hm
                · exact Or.inr hm
                · exact Or.inl (by rw [storeKeys_cons, List.mem_cons]; exact Or.inr hm)
              · rw [putEntry, if_neg hy, storeKeys_cons, List.mem_cons] at hm
                rcases hm with hm | hm
                · exact Or.inl (by rw [storeKeys_cons, List.mem_cons]; exact Or.inl hm)
                · rcases ih' hm with hm' | hm'
                  · exact Or.inl (by rw [storeKeys_cons, List.mem_cons]; exact Or.inr hm')
                  · exact Or.inr hm'
        rcases this hmem with hm | hm
        · exact h.1 hm
        · exact hx hm

theorem snodup_markAsSynced {st : List LocalEntry} (h : SNodup st) (u : String) :
    SNodup (markAsSynced st u) := by
  unfold markAsSynced
  cases storeLookup st u with
  | none => exact h
  | some t => exact snodup_putEntry h _

theorem snodup_saveFields {st : List LocalEntry} (h : SNodup st) (now : Int)
    (u : String) (f : TaskFields) : SNodup (saveFields now st u f) :=
  snodup_putEntry h _

theorem snodup_syncRemoteToLocal {st : List LocalEntry} (h : SNodup st) (now : Int)
    (rt : RemoteTask) : SNodup (syncRemoteToLocal now st rt) :=
  snodup_markAsSynced (snodup_saveFields h now rt.url rt.fields) rt.url

/-- C10.  `SyncService.deleteTask(url)` deletes the Local Store entry
first and returns normally in every case: with no remote attached, with a
`temp:` key, and — through the `try`/`catch` — when the remote delete
throws; the completed local deletion is never undone. -/
theorem deleteTask_local_first_error_swallowed (localSt : List LocalEntry)
    (remote : Option (String → Except String Unit)) (taskUrl : String)
    (hsn : SNodup localSt) :
    svcDeleteTask localSt remote taskUrl = Except.ok (delEntry localSt taskUrl) ∧
    storeLookup (delEntry localSt taskUrl) taskUrl = none := by
  constructor
  · unfold svcDeleteTask
    cases remote with
    | none => rfl
    | some rdel =>
        show (if ¬ isTempUrl taskUrl = true then
                match rdel taskUrl with
                | Except.ok _ => Except.ok (delEntry localSt taskUrl)
                | Except.error _ => Except.ok (delEntry localSt taskUrl)
              else Except.ok (delEntry localSt taskUrl)) =
            Except.ok (delEntry localSt taskUrl)
        split
        · cases rdel taskUrl <;> rfl
        · rfl
  · exact storeLookup_delEntry_self localSt taskUrl hsn

/-- Closed instance of C10 in which the remote delete throws. -/
theorem deleteTask_local_first_error_swallowed_witness :
    svcDeleteTask [⟨"https://pod/t/u", mkFields "A", 1, SyncFlag.synced⟩]
        (some fun _ => Except.error "network down") "https://pod/t/u" =
      Except.ok (delEntry [⟨"https://pod/t/u", mkFields "A", 1, SyncFlag.synced⟩]
        "https://pod/t/u") ∧
    storeLookup (delEntry [⟨"https://pod/t/u", mkFields "A", 1, SyncFlag.synced⟩]
        "https://pod/t/u") "https://pod/t/u" = none :=
  deleteTask_local_first_error_swallowed _ _ _ (by decide)

/-! ## Lookup lemmas for the sync phases -/

theorem saveFields_lookup_self (now : Int) (st : List LocalEntry) (u : String)
    (f : TaskFields) :
    storeLookup (saveFields now st u f) u =
      some ⟨u, f, now, SyncFlag.pending⟩ :=
  storeLookup_putEntry_self st _

theorem saveFields_lookup_ne (now : Int) (st : List LocalEntry) (u u' : String)
    (f : TaskFields) (h : u' ≠ u) :
    storeLookup (saveFields now st u f) u' = storeLookup st u' :=
  storeLookup_putEntry_ne st _ u' h

theorem markAsSynced_lookup_ne (st : List LocalEntry) (u u' : String) (h : u' ≠ u) :
    storeLookup (markAsSynced st u) u' = storeLookup st u' := by
  unfold markAsSynced
  cases hl : storeLookup st u with
  | none => rfl
  | some t =>
      have ht : t.url = u := storeLookup_url hl
      exact storeLookup_putEntry_ne st _ u' (by
        show u' ≠ ({ t with syncStatus := SyncFlag.synced } : LocalEntry).url
        simpa [ht] using h)

theorem syncRemoteToLocal_lookup_self (now : Int) (st : List LocalEntry)
    (rt : RemoteTask) :
    storeLookup (syncRemoteToLocal now st rt) rt.url =
      some ⟨rt.url, rt.fields, now, SyncFlag.synced⟩ := by
  unfold syncRemoteToLocal
  rw [storeLookup_markAsSynced, saveFields_lookup_self]
  rfl

theorem syncRemoteToLocal_lookup_ne (now : Int) (st : List LocalEntry)
    (rt : RemoteTask) (u : String) (h : u ≠ rt.url) :
    storeLookup (syncRemoteToLocal now st rt) u = storeLookup st u := by
  unfold syncRemoteToLocal
  rw [markAsSynced_lookup_ne _ _ _ h, saveFields_lookup_ne _ _ _ _ _ h]

theorem storeLookup_of_mem {st : List LocalEntry} {e : LocalEntry}
    (hsn : SNodup st) (hmem : e ∈ st) : storeLookup st e.url = some e := by
  induction st with
  | nil => cases hmem
  | cons x rest ih =>
      rw [SNodup, storeKeys_cons, List.nodup_cons] at hsn
      rcases List.mem_cons.1 hmem with h | h
      · subst h
        rw [storeLookup, if_pos rfl]
      · have hx : x.url ≠ e.url := fun hh =>
          hsn.1 (hh ▸ List.mem_map_of_mem LocalEntry.url h)
        rw [storeLookup, if_neg hx]
        exact ih hsn.2 h

theorem find?_url_eq_storeLookup (l : List LocalEntry) (u : String) :
    l.find? (fun t => t.url == u) = storeLookup l u := by
  induction l with
  | nil => rfl
  | cons x rest ih =>
      by_cases hx : x.url = u
      · rw [List.find?_cons_of_pos _ (by simpa using hx), storeLookup, if_pos hx]
      · rw [List.find?_cons_of_neg _ (by simpa using hx), storeLookup, if_neg hx, ih]

theorem localMapGet_eq (l : List LocalEntry) (u : String) :
    localMapGet l u = storeLookup l.reverse u :=
  find?_url_eq_storeLookup l.reverse u

theorem localMapGet_of_mem {l : List LocalEntry} {e : LocalEntry}
    (hsn : SNodup l) (hmem : e ∈ l) : localMapGet l e.url = some e := by
  rw [localMapGet_eq]
  refine storeLookup_of_mem ?_ (List.mem_reverse.2 hmem)
  rw [SNodup, storeKeys] at hsn ⊢
  rw [List.map_reverse]
  exact List.nodup_reverse.2 hsn

theorem remoteFind_url {rem : List RemoteTask} {u : String} {rt : RemoteTask}
    (h : remoteFind rem u = some rt) : rt.url = u := by
  have := List.find?_some h
  simpa using this

theorem remoteFind_of_mem {rem : List RemoteTask} {rt : RemoteTask}
    (hrn : (rem.map RemoteTask.url).Nodup) (hmem : rt ∈ rem) :
    remoteFind rem rt.url = some rt := by
  induction rem with
  | nil => cases hmem
  | cons x rest ih =>
      rw [List.map_cons, List.nodup_cons] at hrn
      rcases List.mem_cons.1 hmem with h | h
      · subst h
        rw [remoteFind, List.find?_cons_of_pos _ (by simp)]
      · have hx : x.url ≠ rt.url := fun hh =>
          hrn.1 (hh ▸ List.mem_map_of_mem RemoteTask.url h)
        rw [remoteFind, List.find?_cons_of_neg _ (by simpa using hx)]
        exact ih hrn.2 h

theorem remoteFind_none {rem : List RemoteTask} {u : String}
    (h : u ∉ rem.map RemoteTask.url) : remoteFind rem u = none := by
  rw [remoteFind, List.find?_eq_none]
  intro rt hrt
  simp only [beq_iff_eq]
  intro hh
  exact h (hh ▸ List.mem_map_of_mem RemoteTask.url hrt)

theorem remoteMapGet_eq (rem : List RemoteTask) (u : String) :
    remoteMapGet rem u = remoteFind rem.reverse u := rfl

theorem remoteMapGet_none {rem : List RemoteTask} {u : String}
    (h : u ∉ rem.map RemoteTask.url) : remoteMapGet rem u = none := by
  rw [remoteMapGet_eq]
  refine remoteFind_none ?_
  rw [List.map_reverse, List.mem_reverse]
  exact h

theorem remoteMapGet_of_mem {rem : List RemoteTask} {rt : RemoteTask}
    (hrn : (rem.map RemoteTask.url).Nodup) (hmem : rt ∈ rem) :
    remoteMapGet rem rt.url = some rt := by
  rw [remoteMapGet_eq]
  refine remoteFind_of_mem ?_ (List.mem_reverse.2 hmem)
  rw [List.map_reverse]
  exact List.nodup_reverse.2 hrn

theorem remoteMapGet_url {rem : List RemoteTask} {u : String} {rt : RemoteTask}
    (h : remoteMapGet rem u = some rt) : rt.url = u :=
  remoteFind_url (remoteMapGet_eq rem u ▸ h)

theorem remoteFind_update_self (rem : List RemoteTask) (u : String) (f : TaskFields) :
    remoteFind (remoteUpdate rem u f) u =
      (remoteFind rem u).map (fun rt => { rt with fields := f }) := by
  induction rem with
  | nil => rfl
  | cons x rest ih =>
      by_cases hx : x.url = u
      · rw [remoteUpdate, List.map_cons, if_pos hx]
        rw [remoteFind, List.find?_cons_of_pos _ (by simpa using hx),
          remoteFind, List.find?_cons_of_pos _ (by simpa using hx)]
        rfl
      · rw [remoteUpdate, List.map_cons, if_neg hx]
        rw [remoteFind, List.find?_cons_of_neg _ (by simpa using hx),
          remoteFind, List.find?_cons_of_neg _ (by simpa using hx)]
        exact ih

theorem remoteFind_update_ne (rem : List RemoteTask) (u u' : String) (f : TaskFields)
    (h : u ≠ u') : remoteFind (remoteUpdate rem u' f) u = remoteFind rem u := by
  induction rem with
  | nil => rfl
  | cons x rest ih =>
      by_cases hx : x.url = u'
      · rw [remoteUpdate, List.map_cons, if_pos hx]
        have hxu : ¬ x.url = u := fun hh => h (hh ▸ hx.symm ▸ rfl)
        rw [remoteFind, List.find?_cons_of_neg _ (by simpa using hxu),
          remoteFind, List.find?_cons_of_neg _ (by simpa using hxu)]
        exact ih
      · rw [remoteUpdate, List.map_cons, if_neg hx]
        by_cases hxu : x.url = u
        · rw [remoteFind, List.find?_cons_of_pos _ (by simpa using hxu),
            remoteFind, List.find?_cons_of_pos _ (by simpa using hxu)]
        · rw [remoteFind, List.find?_cons_of_neg _ (by simpa using hxu),
            remoteFind, List.find?_cons_of_neg _ (by simpa using hxu)]
          exact ih

theorem remoteFind_append_ne (rem : List RemoteTask) (x : RemoteTask) (u : String)
    (h : x.url ≠ u) : remoteFind (rem ++ [x]) u = remoteFind rem u := by
  induction rem with
  | nil =>
      rw [List.nil_append, remoteFind, List.find?_cons_of_neg _ (by simpa using h)]
      rfl
  | cons y rest ih =>
      by_cases hy : y.url = u
      · rw [List.cons_append, remoteFind, List.find?_cons_of_pos _ (by simpa using hy),
          remoteFind, List.find?_cons_of_pos _ (by simpa using hy)]
      · rw [List.cons_append, remoteFind, List.find?_cons_of_neg _ (by simpa using hy),
          remoteFind, List.find?_cons_of_neg _ (by simpa using hy)]
        exact ih

/-! ## Phase-1 bookkeeping: mapping, creates, counter -/

/-- The `urlMapping` Phase 1 produces: one pair per `temp:` entry, keyed
by successive `genUrl` indices. -/
def p1map (genUrl : Nat → String) : Nat → List LocalEntry → List (String × String)
  | _, [] => []
  | c, t :: ts =>
      if isTempUrl t.url then (t.url, genUrl c) :: p1map genUrl (c + 1) ts
      else p1map genUrl c ts

/-- The `create` log Phase 1 produces. -/
def p1creates (ts : List LocalEntry) : List (String × TaskFields) :=
  (ts.filter (fun t => isTempUrl t.url)).map (fun t => (t.url, t.fields))

/-- Number of creates Phase 1 issues. -/
def tempCount (ts : List LocalEntry) : Nat :=
  (ts.filter (fun t => isTempUrl t.url)).length

theorem p1map_append (genUrl : Nat → String) (c : Nat) (xs ys : List LocalEntry) :
    p1map genUrl c (xs ++ ys) =
      p1map genUrl c xs ++ p1map genUrl (c + tempCount xs) ys := by
  induction xs generalizing c with
  | nil => simp [p1map, tempCount]
  | cons t xs ih =>
      by_cases ht : isTempUrl t.url
      · rw [List.cons_append, p1map, if_pos ht, p1map, if_pos ht, ih (c + 1),
          List.cons_append]
        have : c + 1 + tempCount xs = c + tempCount (t :: xs) := by
          rw [tempCount, tempCount, List.filter_cons, if_pos (by simpa using ht)]
          simp [Nat.add_comm, Nat.add_assoc, Nat.add_left_comm]
        rw [this]
      · rw [List.cons_append, p1map, if_neg ht, p1map, if_neg ht, ih c]
        have : c + tempCount xs = c + tempCount (t :: xs) := by
          rw [tempCount, tempCount, List.filter_cons, if_neg (by simpa using ht)]
        rw [this]

theorem p1map_mem {genUrl : Nat → String} :
    ∀ {c : Nat} {ts : List LocalEntry} {pr : String × String}, pr ∈ p1map genUrl c ts →
      (∃ t ∈ ts, t.url = pr.1 ∧ isTempUrl t.url) ∧
      ∃ k, c ≤ k ∧ k < c + tempCount ts ∧ pr.2 = genUrl k := by
  intro c ts
  induction ts generalizing c with
  | nil => intro pr h; cases h
  | cons t ts ih =>
      intro pr h
      by_cases ht : isTempUrl t.url
      · rw [p1map, if_pos ht] at h
        have hcount : tempCount (t :: ts) = tempCount ts + 1 := by
          rw [tempCount, tempCount, List.filter_cons, if_pos (by simpa using ht)]
          rfl
        rcases List.mem_cons.1 h with h1 | h1
        · subst h1
          exact ⟨⟨t, List.mem_cons_self _ _, rfl, ht⟩,
            ⟨c, le_refl c, by omega, rfl⟩⟩
        · obtain ⟨⟨t', ht', hurl, htemp⟩, ⟨k, hk1, hk2, hk3⟩⟩ := ih h1
          exact ⟨⟨t', List.mem_cons_of_mem _ ht', hurl, htemp⟩,
            ⟨k, by omega, by omega, hk3⟩⟩
      · rw [p1map, if_neg ht] at h
        have hcount : tempCount (t :: ts) = tempCount ts := by
          rw [tempCount, tempCount, List.filter_cons, if_neg (by simpa using ht)]
        obtain ⟨⟨t', ht', hurl, htemp⟩, ⟨k, hk1, hk2, hk3⟩⟩ := ih h
        exact ⟨⟨t', List.mem_cons_of_mem _ ht', hurl, htemp⟩,
          ⟨k, hk1, by omega, hk3⟩⟩

theorem tempCount_le (ts : List LocalEntry) : tempCount ts ≤ ts.length :=
  List.length_filter_le _ ts

/-! ## Phase frame lemmas -/

theorem phase1Step_store_frame (now : Int) (genUrl : Nat → String)
    (rsnap : List RemoteTask) (st : SyncRun) (t : LocalEntry) (u : String)
    (h : t.url ≠ u) :
    storeLookup (phase1Step now genUrl rsnap st t).store u = storeLookup st.store u := by
  have hu : u ≠ t.url := fun hh => h hh.symm
  unfold phase1Step
  by_cases ht : isTempUrl t.url
  · rw [if_pos ht]
  · rw [if_neg ht]
    cases hrm : remoteMapGet rsnap t.url with
    | some rt =>
        dsimp only
        have hrt : rt.url = t.url := remoteMapGet_url hrm
        by_cases hp : t.syncStatus = SyncFlag.pending
        · rw [if_pos hp]
          by_cases hlw : t.lastModified > remoteTime rt
          · rw [if_pos hlw]
          · rw [if_neg hlw]
            exact syncRemoteToLocal_lookup_ne now st.store rt u (hrt ▸ hu)
        · rw [if_neg hp]
    | none =>
        dsimp only
        show storeLookup (delEntry _ t.url) u = _
        rw [storeLookup_delEntry_ne _ _ _ hu]
        by_cases hs : t.syncStatus = SyncFlag.synced
        · rw [if_pos hs, storeLookup_delEntry_ne _ _ _ hu]
        · rw [if_neg hs]

theorem phase1_fold_store_frame (now : Int) (genUrl : Nat → String)
    (rsnap : List RemoteTask) :
    ∀ (ts : List LocalEntry) (st : SyncRun) (u : String),
      u ∉ ts.map LocalEntry.url →
      storeLookup (ts.foldl (phase1Step now genUrl rsnap) st).store u =
        storeLookup st.store u := by
  intro ts
  induction ts with
  | nil => intro st u _; rfl
  | cons t ts ih =>
      intro st u hu
      rw [List.map_cons, List.mem_cons] at hu
      push_neg at hu
      rw [List.foldl_cons, ih _ u hu.2,
        phase1Step_store_frame now genUrl rsnap st t u (fun hh => hu.1 hh.symm)]

theorem phase1Step_ctr (now : Int) (genUrl : Nat → String) (rsnap : List RemoteTask)
    (st : SyncRun) (t : LocalEntry) :
    (phase1Step now genUrl rsnap st t).ctr =
      if isTempUrl t.url then st.ctr + 1 else st.ctr := by
  unfold phase1Step
  by_cases ht : isTempUrl t.url
  · rw [if_pos ht, if_pos ht]
  · rw [if_neg ht, if_neg ht]
    cases remoteMapGet rsnap t.url with
    | some rt =>
        dsimp only
        by_cases hp : t.syncStatus = SyncFlag.pending
        · rw [if_pos hp]
          by_cases hlw : t.lastModified > remoteTime rt
          · rw [if_pos hlw]
          · rw [if_neg hlw]
        · rw [if_neg hp]
    | none => rfl

theorem phase1Step_remote_frame (now : Int) (genUrl : Nat → String)
    (rsnap : List RemoteTask) (st : SyncRun) (t : LocalEntry) (u : String)
    (h : t.url ≠ u) (hg : genUrl st.ctr ≠ u) :
    remoteFind (phase1Step now genUrl rsnap st t).remote u = remoteFind st.remote u := by
  unfold phase1Step
  by_cases ht : isTempUrl t.url
  · rw [if_pos ht]
    exact remoteFind_append_ne st.remote _ u hg
  · rw [if_neg ht]
    cases hrm : remoteMapGet rsnap t.url with
    | some rt =>
        dsimp only
        have hrt : rt.url = t.url := remoteMapGet_url hrm
        by_cases hp : t.syncStatus = SyncFlag.pending
        · rw [if_pos hp]
          by_cases hlw : t.lastModified > remoteTime rt
          · rw [if_pos hlw]
            exact remoteFind_update_ne st.remote u rt.url _ (hrt ▸ fun hh => h hh.symm)
          · rw [if_neg hlw]
        · rw [if_neg hp]
    | none => rfl

theorem phase1_fold_remote_frame (now : Int) (genUrl : Nat → String)
    (rsnap : List RemoteTask) :
    ∀ (ts : List LocalEntry) (st : SyncRun) (u : String),
      u ∉ ts.map LocalEntry.url →
      (∀ k, st.ctr ≤ k → k < st.ctr + ts.length → genUrl k ≠ u) →
      remoteFind (ts.foldl (phase1Step now genUrl rsnap) st).remote u =
        remoteFind st.remote u := by
  intro ts
  induction ts with
  | nil => intro st u _ _; rfl
  | cons t ts ih =>
      intro st u hu hg
      rw [List.map_cons, List.mem_cons] at hu
      push_neg at hu
      have hctr := phase1Step_ctr now genUrl rsnap st t
      have hstep := phase1Step_remote_frame now genUrl rsnap st t u
        (fun hh => hu.1 hh.symm)
        (hg st.ctr (le_refl _) (by simp [List.length_cons]))
      rw [List.foldl_cons, ih _ u hu.2 ?_, hstep]
      intro k hk1 hk2
      refine hg k ?_ ?_
      · rw [hctr] at hk1
        split at hk1 <;> omega
      · rw [hctr] at hk2
        rw [List.length_cons]
        split at hk2 <;> omega

theorem phase1Step_book (now : Int) (genUrl : Nat → String) (rsnap : List RemoteTask)
    (st : SyncRun) (t : LocalEntry) (ht : ¬ isTempUrl t.url) :
    (phase1Step now genUrl rsnap st t).mapping = st.mapping ∧
    (phase1Step now genUrl rsnap st t).creates = st.creates := by
  unfold phase1Step
  rw [if_neg ht]
  cases remoteMapGet rsnap t.url with
  | some rt =>
      dsimp only
      by_cases hp : t.syncStatus = SyncFlag.pending
      · rw [if_pos hp]
        by_cases hlw : t.lastModified > remoteTime rt
        · rw [if_pos hlw]; exact ⟨rfl, rfl⟩
        · rw [if_neg hlw]; exact ⟨rfl, rfl⟩
      · rw [if_neg hp]; exact ⟨rfl, rfl⟩
  | none => exact ⟨rfl, rfl⟩

theorem phase1_fold_book (now : Int) (genUrl : Nat → String) (rsnap : List RemoteTask) :
    ∀ (ts : List LocalEntry) (st : SyncRun),
      (ts.foldl (phase1Step now genUrl rsnap) st).mapping =
        st.mapping ++ p1map genUrl st.ctr ts ∧
      (ts.foldl (phase1Step now genUrl rsnap) st).creates =
        st.creates ++ p1creates ts ∧
      (ts.foldl (phase1Step now genUrl rsnap) st).ctr = st.ctr + tempCount ts := by
  intro ts
  induction ts with
  | nil => intro st; simp [p1map, p1creates, tempCount]
  | cons t ts ih =>
      intro st
      rw [List.foldl_cons]
      by_cases ht : isTempUrl t.url
      · have hstep : phase1Step now genUrl rsnap st t =
            { st with
              remote := st.remote ++
                [{ url := genUrl st.ctr, fields := t.fields, createdAt := none,
                   updatedAt := none }],
              mapping := st.mapping ++ [(t.url, genUrl st.ctr)],
              ctr := st.ctr + 1,
              creates := st.creates ++ [(t.url, t.fields)] } := by
          unfold phase1Step
          rw [if_pos ht]
        obtain ⟨h1, h2, h3⟩ := ih (phase1Step now genUrl rsnap st t)
        rw [hstep] at h1 h2 h3
        simp only at h1 h2 h3
        rw [hstep]
        refine ⟨?_, ?_, ?_⟩
        · rw [h1, p1map, if_pos ht, List.append_assoc]
          rfl
        · rw [h2, p1creates, p1creates, List.filter_cons, if_pos (by simpa using ht),
            List.map_cons, List.append_assoc]
          rfl
        · rw [h3, tempCount, tempCount, List.filter_cons, if_pos (by simpa using ht)]
          simp [List.length_cons]
          omega
      · obtain ⟨hb1, hb2⟩ := phase1Step_book now genUrl rsnap st t ht
        have hbc := phase1Step_ctr now genUrl rsnap st t
        rw [if_neg ht] at hbc
        obtain ⟨h1, h2, h3⟩ := ih (phase1Step now genUrl rsnap st t)
        refine ⟨?_, ?_, ?_⟩
        · rw [h1, hb1, hbc, p1map, if_neg ht]
        · rw [h2, hb2, p1creates, p1creates, List.filter_cons,
            if_neg (by simpa using ht)]
        · rw [h3, hbc, tempCount, tempCount, List.filter_cons,
            if_neg (by simpa using ht)]

theorem phase1Step_snodup (now : Int) (genUrl : Nat → String) (rsnap : List RemoteTask)
    (st : SyncRun) (t : LocalEntry) (h : SNodup st.store) :
    SNodup (phase1Step now genUrl rsnap st t).store := by
  unfold phase1Step
  by_cases ht : isTempUrl t.url
  · rw [if_pos ht]; exact h
  · rw [if_neg ht]
    cases remoteMapGet rsnap t.url with
    | some rt =>
        dsimp only
        by_cases hp : t.syncStatus = SyncFlag.pending
        · rw [if_pos hp]
          by_cases hlw : t.lastModified > remoteTime rt
          · rw [if_pos hlw]; exact h
          · rw [if_neg hlw]
            exact snodup_syncRemoteToLocal h now rt
        · rw [if_neg hp]; exact h
    | none =>
        show SNodup (delEntry _ t.url)
        refine snodup_delEntry ?_ t.url
        by_cases hs : t.syncStatus = SyncFlag.synced
        · rw [if_pos hs]; exact snodup_delEntry h t.url
        · rw [if_neg hs]; exact h

theorem phase1_fold_snodup (now : Int) (genUrl : Nat → String)
    (rsnap : List RemoteTask) :
    ∀ (ts : List LocalEntry) (st : SyncRun), SNodup st.store →
      SNodup (ts.foldl (phase1Step now genUrl rsnap) st).store := by
  intro ts
  induction ts with
  | nil => exact fun st h => h
  | cons t ts ih =>
      intro st h
      rw [List.foldl_cons]
      exact ih _ (phase1Step_snodup now genUrl rsnap st t h)

theorem phase2Step_invar (now : Int) (lsnap : List LocalEntry) (st : SyncRun)
    (pr : String × String) :
    (phase2Step now lsnap st pr).remote = st.remote ∧
    (phase2Step now lsnap st pr).mapping = st.mapping ∧
    (phase2Step now lsnap st pr).creates = st.creates := by
  unfold phase2Step
  cases lsnap.find? (fun t => t.url == pr.1) with
  | some lt => exact ⟨rfl, rfl, rfl⟩
  | none => exact ⟨rfl, rfl, rfl⟩

theorem phase2_fold_invar (now : Int) (lsnap : List LocalEntry) :
    ∀ (prs : List (String × String)) (st : SyncRun),
      (prs.foldl (phase2Step now lsnap) st).remote = st.remote ∧
      (prs.foldl (phase2Step now lsnap) st).mapping = st.mapping ∧
      (prs.foldl (phase2Step now lsnap) st).creates = st.creates := by
  intro prs
  induction prs with
  | nil => exact fun st => ⟨rfl, rfl, rfl⟩
  | cons pr prs ih =>
      intro st
      rw [List.foldl_cons]
      obtain ⟨h1, h2, h3⟩ := ih (phase2Step now lsnap st pr)
      obtain ⟨g1, g2, g3⟩ := phase2Step_invar now lsnap st pr
      exact ⟨h1.trans g1, h2.trans g2, h3.trans g3⟩

theorem phase2Step_store_frame (now : Int) (lsnap : List LocalEntry) (st : SyncRun)
    (pr : String × String) (u : String) (h1 : pr.1 ≠ u) (h2 : pr.2 ≠ u) :
    storeLookup (phase2Step now lsnap st pr).store u = storeLookup st.store u := by
  unfold phase2Step
  cases lsnap.find? (fun t => t.url == pr.1) with
  | some lt =>
      dsimp only
      show storeLookup (markAsSynced (saveFields _ _ _ _) _) u = _
      rw [markAsSynced_lookup_ne _ _ _ (fun hh => h2 hh.symm),
        saveFields_lookup_ne _ _ _ _ _ (fun hh => h2 hh.symm),
        storeLookup_delEntry_ne _ _ _ (fun hh => h1 hh.symm)]
  | none => rfl

theorem phase2_fold_store_frame (now : Int) (lsnap : List LocalEntry) :
    ∀ (prs : List (String × String)) (st : SyncRun) (u : String),
      (∀ pr ∈ prs, pr.1 ≠ u ∧ pr.2 ≠ u) →
      storeLookup (prs.foldl (phase2Step now lsnap) st).store u =
        storeLookup st.store u := by
  intro prs
  induction prs with
  | nil => intro st u _; rfl
  | cons pr prs ih =>
      intro st u h
      rw [List.foldl_cons, ih _ u (fun q hq => h q (List.mem_cons_of_mem _ hq)),
        phase2Step_store_frame now lsnap st pr u
          (h pr (List.mem_cons_self _ _)).1 (h pr (List.mem_cons_self _ _)).2]

theorem phase2Step_snodup (now : Int) (lsnap : List LocalEntry) (st : SyncRun)
    (pr : String × String) (h : SNodup st.store) :
    SNodup (phase2Step now lsnap st pr).store := by
  unfold phase2Step
  cases lsnap.find? (fun t => t.url == pr.1) with
  | some lt =>
      exact snodup_markAsSynced (snodup_saveFields (snodup_delEntry h pr.1) now pr.2 lt.fields) pr.2
  | none => exact h

theorem phase2_fold_snodup (now : Int) (lsnap : List LocalEntry) :
    ∀ (prs : List (String × String)) (st : SyncRun), SNodup st.store →
      SNodup (prs.foldl (phase2Step now lsnap) st).store := by
  intro prs
  induction prs with
  | nil => exact fun st h => h
  | cons pr prs ih =>
      intro st h
      rw [List.foldl_cons]
      exact ih _ (phase2Step_snodup now lsnap st pr h)

theorem phase3Step_invar (now : Int) (mapVals : List String) (lsnap : List LocalEntry)
    (st : SyncRun) (rt : RemoteTask) :
    (phase3Step now mapVals lsnap st rt).remote = st.remote ∧
    (phase3Step now mapVals lsnap st rt).mapping = st.mapping ∧
    (phase3Step now mapVals lsnap st rt).creates = st.creates := by
  unfold phase3Step
  by_cases hm : rt.url ∈ mapVals
  · rw [if_pos hm]; exact ⟨rfl, rfl, rfl⟩
  · rw [if_neg hm]
    cases localMapGet lsnap rt.url with
    | none => exact ⟨rfl, rfl, rfl⟩
    | some lt =>
        dsimp only
        by_cases hs : lt.syncStatus = SyncFlag.synced
        · rw [if_pos hs]
          by_cases hlw : remoteTime rt > lt.lastModified
          · rw [if_pos hlw]; exact ⟨rfl, rfl, rfl⟩
          · rw [if_neg hlw]; exact ⟨rfl, rfl, rfl⟩
        · rw [if_neg hs]; exact ⟨rfl, rfl, rfl⟩

theorem phase3_fold_invar (now : Int) (mapVals : List String) (lsnap : List LocalEntry) :
    ∀ (rts : List RemoteTask) (st : SyncRun),
      (rts.foldl (phase3Step now mapVals lsnap) st).remote = st.remote ∧
      (rts.foldl (phase3Step now mapVals lsnap) st).mapping = st.mapping ∧
      (rts.foldl (phase3Step now mapVals lsnap) st).creates = st.creates := by
  intro rts
  induction rts with
  | nil => exact fun st => ⟨rfl, rfl, rfl⟩
  | cons rt rts ih =>
      intro st
      rw [List.foldl_cons]
      obtain ⟨h1, h2, h3⟩ := ih (phase3Step now mapVals lsnap st rt)
      obtain ⟨g1, g2, g3⟩ := phase3Step_invar now mapVals lsnap st rt
      exact ⟨h1.trans g1, h2.trans g2, h3.trans g3⟩

theorem phase3Step_store_frame (now : Int) (mapVals : List String)
    (lsnap : List LocalEntry) (st : SyncRun) (rt : RemoteTask) (u : String)
    (h : rt.url ≠ u) :
    storeLookup (phase3Step now mapVals lsnap st rt).store u = storeLookup st.store u := by
  have hu : u ≠ rt.url := fun hh => h hh.symm
  unfold phase3Step
  by_cases hm : rt.url ∈ mapVals
  · rw [if_pos hm]
  · rw [if_neg hm]
    cases localMapGet lsnap rt.url with
    | none => exact syncRemoteToLocal_lookup_ne now st.store rt u hu
    | some lt =>
        dsimp only
        by_cases hs : lt.syncStatus = SyncFlag.synced
        · rw [if_pos hs]
          by_cases hlw : remoteTime rt > lt.lastModified
          · rw [if_pos hlw]
            exact syncRemoteToLocal_lookup_ne now st.store rt u hu
          · rw [if_neg hlw]
        · rw [if_neg hs]

theorem phase3_fold_store_frame (now : Int) (mapVals : List String)
    (lsnap : List LocalEntry) :
    ∀ (rts : List RemoteTask) (st : SyncRun) (u : String),
      u ∉ rts.map RemoteTask.url →
      storeLookup (rts.foldl (phase3Step now mapVals lsnap) st).store u =
        storeLookup st.store u := by
  intro rts
  induction rts with
  | nil => intro st u _; rfl
  | cons rt rts ih =>
      intro st u hu
      rw [List.map_cons, List.mem_cons] at hu
      push_neg at hu
      rw [List.foldl_cons, ih _ u hu.2,
        phase3Step_store_frame now mapVals lsnap st rt u (fun hh => hu.1 hh.symm)]

theorem phase3Step_pending_skip (now : Int) (mapVals : List String)
    (lsnap : List LocalEntry) (st : SyncRun) (rt : RemoteTask) (lt : LocalEntry)
    (hl : localMapGet lsnap rt.url = some lt) (hp : lt.syncStatus = SyncFlag.pending) :
    phase3Step now mapVals lsnap st rt = st := by
  unfold phase3Step
  by_cases hm : rt.url ∈ mapVals
  · rw [if_pos hm]
  · rw [if_neg hm, hl]
    dsimp only
    rw [if_neg (by rw [hp]; exact fun hh => SyncFlag.noConfusion hh)]

theorem phase3Step_snodup (now : Int) (mapVals : List String) (lsnap : List LocalEntry)
    (st : SyncRun) (rt : RemoteTask) (h : SNodup st.store) :
    SNodup (phase3Step now mapVals lsnap st rt).store := by
  unfold phase3Step
  by_cases hm : rt.url ∈ mapVals
  · rw [if_pos hm]; exact h
  · rw [if_neg hm]
    cases localMapGet lsnap rt.url with
    | none => exact snodup_syncRemoteToLocal h now rt
    | some lt =>
        dsimp only
        by_cases hs : lt.syncStatus = SyncFlag.synced
        · rw [if_pos hs]
          by_cases hlw : remoteTime rt > lt.lastModified
          · rw [if_pos hlw]; exact snodup_syncRemoteToLocal h now rt
          · rw [if_neg hlw]; exact h
        · rw [if_neg hs]; exact h

theorem phase3_fold_snodup (now : Int) (mapVals : List String)
    (lsnap : List LocalEntry) :
    ∀ (rts : List RemoteTask) (st : SyncRun), SNodup st.store →
      SNodup (rts.foldl (phase3Step now mapVals lsnap) st).store := by
  intro rts
  induction rts with
  | nil => exact fun st h => h
  | cons rt rts ih =>
      intro st h
      rw [List.foldl_cons]
      exact ih _ (phase3Step_snodup now mapVals lsnap st rt h)

/-! ## Phase 4 -/

theorem phase4_go (u : String) :
    ∀ (L : List LocalEntry) (acc : List LocalEntry),
      storeLookup
        (L.foldl (fun s t => if isTempUrl t.url then s else markAsSynced s t.url) acc) u =
      if u ∈ L.map LocalEntry.url ∧ ¬ isTempUrl u then
        (storeLookup acc u).map (fun e => { e with syncStatus := SyncFlag.synced })
      else storeLookup acc u := by
  intro L
  induction L with
  | nil => intro acc; simp
  | cons t L ih =>
      intro acc
      rw [List.foldl_cons]
      by_cases ht : isTempUrl t.url
      · rw [if_pos ht, ih acc]
        by_cases hc : u ∈ L.map LocalEntry.url ∧ ¬ isTempUrl u
        · rw [if_pos hc, if_pos ⟨List.mem_cons_of_mem _ hc.1, hc.2⟩]
        · rw [if_neg hc]
          by_cases hc2 : u ∈ (t :: L).map LocalEntry.url ∧ ¬ isTempUrl u
          · exfalso
            rcases (show u = t.url ∨ ∃ a ∈ L, a.url = u by simpa using hc2.1)
              with h1 | h1
            · exact hc2.2 (by rw [h1]; exact ht)
            · exact hc ⟨by simpa using h1, hc2.2⟩
          · rw [if_neg hc2]
      · rw [if_neg ht, ih (markAsSynced acc t.url)]
        by_cases hu : u = t.url
        · subst hu
          have hm := storeLookup_markAsSynced acc t.url
          by_cases hc : t.url ∈ L.map LocalEntry.url ∧ ¬ isTempUrl t.url
          · rw [if_pos hc, hm, if_pos ⟨List.mem_cons_self _ _, ht⟩]
            cases storeLookup acc t.url <;> rfl
          · rw [if_neg hc, hm, if_pos ⟨List.mem_cons_self _ _, ht⟩]
        · rw [markAsSynced_lookup_ne _ _ _ hu]
          by_cases hc : u ∈ L.map LocalEntry.url ∧ ¬ isTempUrl u
          · rw [if_pos hc, if_pos ⟨List.mem_cons_of_mem _ hc.1, hc.2⟩]
          · rw [if_neg hc]
            by_cases hc2 : u ∈ (t :: L).map LocalEntry.url ∧ ¬ isTempUrl u
            · exfalso
              rcases (show u = t.url ∨ ∃ a ∈ L, a.url = u by simpa using hc2.1)
                with h1 | h1
              · exact hu h1
              · exact hc ⟨by simpa using h1, hc2.2⟩
            · rw [if_neg hc2]

theorem phase4_lookup (st : List LocalEntry) (u : String) :
    storeLookup (phase4 st) u =
      if u ∈ storeKeys st ∧ ¬ isTempUrl u then
        (storeLookup st u).map (fun e => { e with syncStatus := SyncFlag.synced })
      else storeLookup st u :=
  phase4_go u st st

theorem phase4_none {st : List LocalEntry} {u : String}
    (h : storeLookup st u = none) : storeLookup (phase4 st) u = none := by
  rw [phase4_lookup, h]
  split <;> rfl

/-! ## Named stages of one `sync()` run -/

/-- Phase 1 result (`for (const localTask of localTasks)`). -/
def sync1 (now : Int) (genUrl : Nat → String) (store0 : List LocalEntry)
    (remote0 : List RemoteTask) : SyncRun :=
  store0.foldl (phase1Step now genUrl remote0) ⟨store0, remote0, [], 0, []⟩

/-- Phase 2 result (`for (const [tempUrl, newUrl] of urlMapping)`). -/
def sync2 (now : Int) (genUrl : Nat → String) (store0 : List LocalEntry)
    (remote0 : List RemoteTask) : SyncRun :=
  (sync1 now genUrl store0 remote0).mapping.foldl (phase2Step now store0)
    (sync1 now genUrl store0 remote0)

/-- Phase 3 result (`for (const remoteTask of remoteTasks)`). -/
def sync3 (now : Int) (genUrl : Nat → String) (store0 : List LocalEntry)
    (remote0 : List RemoteTask) : SyncRun :=
  remote0.foldl
    (phase3Step now ((sync2 now genUrl store0 remote0).mapping.map Prod.snd) store0)
    (sync2 now genUrl store0 remote0)

theorem syncRun_eq_stages (now : Int) (genUrl : Nat → String)
    (store0 : List LocalEntry) (remote0 : List RemoteTask) :
    syncRun now genUrl store0 remote0 =
      { sync3 now genUrl store0 remote0 with
        store := phase4 (sync3 now genUrl store0 remote0).store } := rfl

/-! ## Per-branch shapes of the Phase 1 step -/

theorem phase1Step_temp_store (now : Int) (genUrl : Nat → String)
    (rsnap : List RemoteTask) (st : SyncRun) (t : LocalEntry)
    (ht : isTempUrl t.url) :
    (phase1Step now genUrl rsnap st t).store = st.store := by
  unfold phase1Step
  rw [if_pos ht]

theorem phase1Step_deleted (now : Int) (genUrl : Nat → String)
    (rsnap : List RemoteTask) (st : SyncRun) (t : LocalEntry)
    (ht : ¬ isTempUrl t.url) (habs : remoteMapGet rsnap t.url = none)
    (hsn : SNodup st.store) :
    storeLookup (phase1Step now genUrl rsnap st t).store t.url = none := by
  unfold phase1Step
  rw [if_neg ht, habs]
  dsimp only
  refine storeLookup_delEntry_self _ _ ?_
  split
  · exact snodup_delEntry hsn _
  · exact hsn

theorem phase1Step_localwins (now : Int) (genUrl : Nat → String)
    (rsnap : List RemoteTask) (st : SyncRun) (t : LocalEntry) (rt : RemoteTask)
    (ht : ¬ isTempUrl t.url) (hrm : remoteMapGet rsnap t.url = some rt)
    (hp : t.syncStatus = SyncFlag.pending) (hlw : t.lastModified > remoteTime rt) :
    phase1Step now genUrl rsnap st t =
      { st with remote := remoteUpdate st.remote rt.url (pushFields t.fields rt.fields) } := by
  unfold phase1Step
  rw [if_neg ht, hrm]
  dsimp only
  rw [if_pos hp, if_pos hlw]

theorem phase1Step_remotewins (now : Int) (genUrl : Nat → String)
    (rsnap : List RemoteTask) (st : SyncRun) (t : LocalEntry) (rt : RemoteTask)
    (ht : ¬ isTempUrl t.url) (hrm : remoteMapGet rsnap t.url = some rt)
    (hp : t.syncStatus = SyncFlag.pending) (hlw : ¬ t.lastModified > remoteTime rt) :
    phase1Step now genUrl rsnap st t =
      { st with store := syncRemoteToLocal now st.store rt } := by
  unfold phase1Step
  rw [if_neg ht, hrm]
  dsimp only
  rw [if_pos hp, if_neg hlw]

/-! ## Further Phase 3 frame lemmas -/

theorem phase3Step_skip (now : Int) (mapVals : List String) (lsnap : List LocalEntry)
    (st : SyncRun) (rt : RemoteTask) (hm : rt.url ∈ mapVals) :
    phase3Step now mapVals lsnap st rt = st := by
  unfold phase3Step
  rw [if_pos hm]

theorem phase3_fold_store_frame_of_pending (now : Int) (mapVals : List String)
    (lsnap : List LocalEntry) (lt : LocalEntry)
    (hlp : lt.syncStatus = SyncFlag.pending) :
    ∀ (rts : List RemoteTask) (st : SyncRun) (u : String),
      (∀ rt ∈ rts, rt.url = u → localMapGet lsnap rt.url = some lt) →
      storeLookup (rts.foldl (phase3Step now mapVals lsnap) st).store u =
        storeLookup st.store u := by
  intro rts
  induction rts with
  | nil => intro st u _; rfl
  | cons rt rts ih =>
      intro st u h
      rw [List.foldl_cons, ih _ u (fun q hq => h q (List.mem_cons_of_mem _ hq))]
      by_cases hru : rt.url = u
      · rw [phase3Step_pending_skip now mapVals lsnap st rt lt
          (h rt (List.mem_cons_self _ _) hru) hlp]
      · exact phase3Step_store_frame now mapVals lsnap st rt u hru

theorem phase3_fold_store_frame_of_mapped (now : Int) (mapVals : List String)
    (lsnap : List LocalEntry) :
    ∀ (rts : List RemoteTask) (st : SyncRun) (u : String), u ∈ mapVals →
      storeLookup (rts.foldl (phase3Step now mapVals lsnap) st).store u =
        storeLookup st.store u := by
  intro rts
  induction rts with
  | nil => intro st u _; rfl
  | cons rt rts ih =>
      intro st u hm
      rw [List.foldl_cons, ih _ u hm]
      by_cases hru : rt.url = u
      · rw [phase3Step_skip now mapVals lsnap st rt (by rw [hru]; exact hm)]
      · exact phase3Step_store_frame now mapVals lsnap st rt u hru

/-! ## Key bookkeeping helpers -/

theorem snodup_middle {l1 l2 : List LocalEntry} {e : LocalEntry}
    (h : SNodup (l1 ++ e :: l2)) :
    e.url ∉ l1.map LocalEntry.url ∧ e.url ∉ l2.map LocalEntry.url := by
  rw [SNodup, storeKeys, List.map_append, List.map_cons] at h
  obtain ⟨h1, h2, hdisj⟩ := List.nodup_append.1 h
  obtain ⟨he, _⟩ := List.nodup_cons.1 h2
  exact ⟨fun hm => hdisj hm (List.mem_cons_self _ _), he⟩

theorem p1creates_filter_nil {ts : List LocalEntry} {u : String}
    (h : u ∉ storeKeys ts) :
    (p1creates ts).filter (fun pr => pr.1 == u) = [] := by
  induction ts with
  | nil => rfl
  | cons t ts ih =>
      rw [storeKeys_cons, List.mem_cons] at h
      push_neg at h
      have htail := ih h.2
      rw [p1creates] at htail
      by_cases htt : isTempUrl t.url
      · rw [p1creates, List.filter_cons, if_pos (by simpa using htt), List.map_cons,
          List.filter_cons, if_neg (by simpa using fun hh => h.1 hh.symm)]
        exact htail
      · rw [p1creates, List.filter_cons, if_neg (by simpa using htt)]
        exact htail

theorem p1creates_filter {ts : List LocalEntry} {e : LocalEntry}
    (hsn : SNodup ts) (hmem : e ∈ ts) (ht : isTempUrl e.url) :
    (p1creates ts).filter (fun pr => pr.1 == e.url) = [(e.url, e.fields)] := by
  induction ts with
  | nil => cases hmem
  | cons t ts ih =>
      rw [SNodup, storeKeys_cons, List.nodup_cons] at hsn
      rcases List.mem_cons.1 hmem with h1 | h1
      · subst h1
        have htail := p1creates_filter_nil hsn.1
        rw [p1creates] at htail
        rw [p1creates, List.filter_cons, if_pos (by simpa using ht), List.map_cons,
          List.filter_cons, if_pos (by simp), htail]
      · have htail := ih hsn.2 h1
        rw [p1creates] at htail
        by_cases htt : isTempUrl t.url
        · rw [p1creates, List.filter_cons, if_pos (by simpa using htt), List.map_cons,
            List.filter_cons, if_neg (by
              have hne : ¬ t.url = e.url := fun hh => hsn.1 (by
                rw [hh]
                exact List.mem_map_of_mem LocalEntry.url h1)
              simpa using hne)]
          exact htail
        · rw [p1creates, List.filter_cons, if_neg (by simpa using htt)]
          exact htail

theorem sync1_mapping_avoids (now : Int) (genUrl : Nat → String)
    (store0 : List LocalEntry) (remote0 : List RemoteTask) (u : String)
    (hu : ¬ isTempUrl u) (hg : ∀ k, k < store0.length → genUrl k ≠ u) :
    ∀ pr ∈ (sync1 now genUrl store0 remote0).mapping, pr.1 ≠ u ∧ pr.2 ≠ u := by
  intro pr hpr
  unfold sync1 at hpr
  rw [(phase1_fold_book now genUrl remote0 store0 _).1] at hpr
  dsimp only at hpr
  rw [List.nil_append] at hpr
  obtain ⟨⟨t, _, hurl, htemp⟩, k, _, hk2, hk3⟩ := p1map_mem hpr
  refine ⟨fun hh => hu ?_, fun hh => hg k ?_ (by rw [← hk3]; exact hh)⟩
  · rw [← hh, ← hurl]
    exact htemp
  · have := tempCount_le store0
    omega

/-! ## Claim C1: remote deletions are honoured, pending edits included -/

/-- C1.  An entry of the initial Local Store whose key is a real remote
url (no `temp:` prefix) but which is absent from the remote snapshot is
gone from the Local Store after a successful `sync()` run — also when
its `syncStatus` was `pending`, because the second `deleteTask` of the
Phase 1 deletion branch runs unconditionally.  The store holds one
record per key and the urls the server assigns during the run are fresh
for that key. -/
theorem sync_honors_remote_deletion (now : Int) (genUrl : Nat → String)
    (store0 : List LocalEntry) (remote0 : List RemoteTask) (e : LocalEntry)
    (hsn : SNodup store0) (hmem : e ∈ store0) (ht : ¬ isTempUrl e.url)
    (habs : e.url ∉ remote0.map RemoteTask.url)
    (hg : ∀ k, k < store0.length → genUrl k ≠ e.url) :
    storeLookup (syncRun now genUrl store0 remote0).store e.url = none := by
  obtain ⟨l1, l2, rfl⟩ := List.append_of_mem hmem
  obtain ⟨he1, he2⟩ := snodup_middle hsn
  have h1 : storeLookup (sync1 now genUrl (l1 ++ e :: l2) remote0).store e.url = none := by
    unfold sync1
    rw [List.foldl_append, List.foldl_cons,
      phase1_fold_store_frame now genUrl remote0 l2 _ e.url he2]
    exact phase1Step_deleted now genUrl remote0 _ e ht (remoteMapGet_none habs)
      (phase1_fold_snodup now genUrl remote0 l1 _ hsn)
  have h2 : storeLookup (sync2 now genUrl (l1 ++ e :: l2) remote0).store e.url = none := by
    unfold sync2
    rw [phase2_fold_store_frame now (l1 ++ e :: l2) _ _ e.url
      (sync1_mapping_avoids now genUrl (l1 ++ e :: l2) remote0 e.url ht hg)]
    exact h1
  have h3 : storeLookup (sync3 now genUrl (l1 ++ e :: l2) remote0).store e.url = none := by
    unfold sync3
    rw [phase3_fold_store_frame now _ (l1 ++ e :: l2) remote0 _ e.url habs]
    exact h2
  rw [syncRun_eq_stages]
  exact phase4_none h3

/-- Closed instance of C1: a `pending` entry whose remote record is gone
is removed from the Local Store by `sync()`. -/
theorem sync_honors_remote_deletion_witness :
    storeLookup (syncRun 100 exGen
      [⟨"https://pod/tasks/e", mkFields "E", 5, SyncFlag.pending⟩] []).store
      "https://pod/tasks/e" = none :=
  sync_honors_remote_deletion 100 exGen
    [⟨"https://pod/tasks/e", mkFields "E", 5, SyncFlag.pending⟩] []
    ⟨"https://pod/tasks/e", mkFields "E", 5, SyncFlag.pending⟩
    (by decide) (by decide) (by decide) (by decide) (by decide)

/-! ## Claim C2: last-write-wins conflict resolution -/

/-- C2 (counterexample).  The claim compares the local `lastModified`
against the remote `updatedAt` timestamp.  The code compares against
`updatedAt?.getTime() || createdAt?.getTime() || 0`, and `||` treats the
epoch value `0` as falsy: a remote record whose `updatedAt` is the epoch
falls back to its `createdAt`.  Locally modified at `5 > 0 = updatedAt`,
the claim predicts a local win; the code compares `5 > 10` (the
`createdAt` fallback) and lets the remote record overwrite the pending
local entry while the remote record keeps its own fields. -/
theorem sync_lww_updatedAt_counterexample :
    (5 : Int) > 0 ∧
    (syncRun 100 exGen [⟨"https://pod/t/x", mkFields "Foo", 5, SyncFlag.pending⟩]
        [⟨"https://pod/t/x", mkFields "Bar", some 10, some 0⟩]).store
      = [⟨"https://pod/t/x", mkFields "Bar", 100, SyncFlag.synced⟩] ∧
    (syncRun 100 exGen [⟨"https://pod/t/x", mkFields "Foo", 5, SyncFlag.pending⟩]
        [⟨"https://pod/t/x", mkFields "Bar", some 10, some 0⟩]).remote
      = [⟨"https://pod/t/x", mkFields "Bar", some 10, some 0⟩] :=
  ⟨by decide, by decide, by decide⟩

/-- C2 (amended).  A `pending` local entry whose key also exists in the
remote snapshot is merged by last-write-wins against the *effective*
remote time `remoteTime` (`updatedAt?.getTime() || createdAt?.getTime()
|| 0`, so the epoch collapses to the fallback): when
`lastModified > remoteTime` the local fields overwrite the remote record
(except `dateCreated`) and the local entry survives unchanged, ending
`synced`; otherwise — ties included — the remote fields overwrite the
local entry (stamped at `now`, `synced`) and the remote record is left
alone. -/
theorem sync_last_write_wins (now : Int) (genUrl : Nat → String)
    (store0 : List LocalEntry) (remote0 : List RemoteTask)
    (e : LocalEntry) (rt : RemoteTask)
    (hsn : SNodup store0) (hrn : (remote0.map RemoteTask.url).Nodup)
    (hmem : e ∈ store0) (hp : e.syncStatus = SyncFlag.pending)
    (ht : ¬ isTempUrl e.url) (hrt : rt ∈ remote0) (hurl : rt.url = e.url)
    (hg : ∀ k, k < store0.length → genUrl k ≠ e.url) :
    (e.lastModified > remoteTime rt →
      storeLookup (syncRun now genUrl store0 remote0).store e.url =
        some ⟨e.url, e.fields, e.lastModified, SyncFlag.synced⟩ ∧
      remoteFind (syncRun now genUrl store0 remote0).remote e.url =
        some { rt with fields := pushFields e.fields rt.fields }) ∧
    (¬ e.lastModified > remoteTime rt →
      storeLookup (syncRun now genUrl store0 remote0).store e.url =
        some ⟨e.url, rt.fields, now, SyncFlag.synced⟩ ∧
      remoteFind (syncRun now genUrl store0 remote0).remote e.url = some rt) := by
  obtain ⟨l1, l2, rfl⟩ := List.append_of_mem hmem
  obtain ⟨he1, he2⟩ := snodup_middle hsn
  have hrm : remoteMapGet remote0 e.url = some rt := by
    rw [← hurl]
    exact remoteMapGet_of_mem hrn hrt
  have hfind : remoteFind remote0 e.url = some rt := by
    rw [← hurl]
    exact remoteFind_of_mem hrn hrt
  have hlen1 := List.length_append l1 (e :: l2)
  have hlen2 := List.length_cons e l2
  have htc1 := tempCount_le l1
  have hlookA : storeLookup (l1.foldl (phase1Step now genUrl remote0)
      ⟨l1 ++ e :: l2, remote0, [], 0, []⟩).store e.url = some e := by
    rw [phase1_fold_store_frame now genUrl remote0 l1 _ e.url he1]
    exact storeLookup_of_mem hsn hmem
  have hctrA : (l1.foldl (phase1Step now genUrl remote0)
      ⟨l1 ++ e :: l2, remote0, [], 0, []⟩).ctr = tempCount l1 := by
    have h := (phase1_fold_book now genUrl remote0 l1
      ⟨l1 ++ e :: l2, remote0, [], 0, []⟩).2.2
    simpa using h
  have hremA : remoteFind (l1.foldl (phase1Step now genUrl remote0)
      ⟨l1 ++ e :: l2, remote0, [], 0, []⟩).remote e.url = remoteFind remote0 e.url := by
    refine phase1_fold_remote_frame now genUrl remote0 l1 _ e.url he1 ?_
    intro k hk1 hk2
    dsimp only at hk1 hk2
    refine hg k ?_
    omega
  have hctrE : (phase1Step now genUrl remote0
      (l1.foldl (phase1Step now genUrl remote0) ⟨l1 ++ e :: l2, remote0, [], 0, []⟩) e).ctr
      = tempCount l1 := by
    rw [phase1Step_ctr, if_neg ht, hctrA]
  have hfreshL2 : ∀ k, (phase1Step now genUrl remote0
        (l1.foldl (phase1Step now genUrl remote0) ⟨l1 ++ e :: l2, remote0, [], 0, []⟩) e).ctr
        ≤ k →
      k < (phase1Step now genUrl remote0
        (l1.foldl (phase1Step now genUrl remote0) ⟨l1 ++ e :: l2, remote0, [], 0, []⟩) e).ctr
        + l2.length →
      genUrl k ≠ e.url := by
    intro k hk1 hk2
    rw [hctrE] at hk1 hk2
    refine hg k ?_
    omega
  have hstoreE2 : storeLookup (sync1 now genUrl (l1 ++ e :: l2) remote0).store e.url =
      storeLookup (phase1Step now genUrl remote0
        (l1.foldl (phase1Step now genUrl remote0) ⟨l1 ++ e :: l2, remote0, [], 0, []⟩) e).store
        e.url := by
    unfold sync1
    rw [List.foldl_append, List.foldl_cons]
    exact phase1_fold_store_frame now genUrl remote0 l2 _ e.url he2
  have hremE2 : remoteFind (sync1 now genUrl (l1 ++ e :: l2) remote0).remote e.url =
      remoteFind (phase1Step now genUrl remote0
        (l1.foldl (phase1Step now genUrl remote0) ⟨l1 ++ e :: l2, remote0, [], 0, []⟩) e).remote
        e.url := by
    unfold sync1
    rw [List.foldl_append, List.foldl_cons]
    exact phase1_fold_remote_frame now genUrl remote0 l2 _ e.url he2 hfreshL2
  have hpend : ∀ rt' ∈ remote0, rt'.url = e.url →
      localMapGet (l1 ++ e :: l2) rt'.url = some e := by
    intro rt' _ hru
    rw [hru]
    exact localMapGet_of_mem hsn hmem
  have hr32 : (sync3 now genUrl (l1 ++ e :: l2) remote0).remote =
      (sync2 now genUrl (l1 ++ e :: l2) remote0).remote := by
    unfold sync3
    exact (phase3_fold_invar now _ (l1 ++ e :: l2) remote0 _).1
  have hr21 : (sync2 now genUrl (l1 ++ e :: l2) remote0).remote =
      (sync1 now genUrl (l1 ++ e :: l2) remote0).remote := by
    unfold sync2
    exact (phase2_fold_invar now (l1 ++ e :: l2) _ _).1
  constructor
  · intro hlw
    have hstep := phase1Step_localwins now genUrl remote0
      (l1.foldl (phase1Step now genUrl remote0) ⟨l1 ++ e :: l2, remote0, [], 0, []⟩)
      e rt ht hrm hp hlw
    have h1s : storeLookup (sync1 now genUrl (l1 ++ e :: l2) remote0).store e.url
        = some e := by
      rw [hstoreE2, hstep]
      exact hlookA
    have h1r : remoteFind (sync1 now genUrl (l1 ++ e :: l2) remote0).remote e.url =
        some { rt with fields := pushFields e.fields rt.fields } := by
      rw [hremE2, hstep]
      dsimp only
      rw [hurl, remoteFind_update_self, hremA, hfind]
      dsimp only [Option.map]
      rw [hurl]
    have h2s : storeLookup (sync2 now genUrl (l1 ++ e :: l2) remote0).store e.url
        = some e := by
      unfold sync2
      rw [phase2_fold_store_frame now (l1 ++ e :: l2) _ _ e.url
        (sync1_mapping_avoids now genUrl (l1 ++ e :: l2) remote0 e.url ht hg)]
      exact h1s
    have h3s : storeLookup (sync3 now genUrl (l1 ++ e :: l2) remote0).store e.url
        = some e := by
      unfold sync3
      rw [phase3_fold_store_frame_of_pending now _ (l1 ++ e :: l2) e hp remote0 _
        e.url hpend]
      exact h2s
    refine ⟨?_, ?_⟩
    · rw [syncRun_eq_stages]
      show storeLookup (phase4 (sync3 now genUrl (l1 ++ e :: l2) remote0).store) e.url = _
      rw [phase4_lookup, if_pos ⟨mem_storeKeys_of_lookup h3s, ht⟩, h3s]
      rfl
    · rw [syncRun_eq_stages]
      show remoteFind (sync3 now genUrl (l1 ++ e :: l2) remote0).remote e.url = _
      rw [hr32, hr21]
      exact h1r
  · intro hlw
    have hstep := phase1Step_remotewins now genUrl remote0
      (l1.foldl (phase1Step now genUrl remote0) ⟨l1 ++ e :: l2, remote0, [], 0, []⟩)
      e rt ht hrm hp hlw
    have h1s : storeLookup (sync1 now genUrl (l1 ++ e :: l2) remote0).store e.url =
        some ⟨e.url, rt.fields, now, SyncFlag.synced⟩ := by
      rw [hstoreE2, hstep]
      dsimp only
      rw [← hurl]
      exact syncRemoteToLocal_lookup_self now _ rt
    have h1r : remoteFind (sync1 now genUrl (l1 ++ e :: l2) remote0).remote e.url =
        some rt := by
      rw [hremE2, hstep]
      dsimp only
      rw [hremA]
      exact hfind
    have h2s : storeLookup (sync2 now genUrl (l1 ++ e :: l2) remote0).store e.url =
        some ⟨e.url, rt.fields, now, SyncFlag.synced⟩ := by
      unfold sync2
      rw [phase2_fold_store_frame now (l1 ++ e :: l2) _ _ e.url
        (sync1_mapping_avoids now genUrl (l1 ++ e :: l2) remote0 e.url ht hg)]
      exact h1s
    have h3s : storeLookup (sync3 now genUrl (l1 ++ e :: l2) remote0).store e.url =
        some ⟨e.url, rt.fields, now, SyncFlag.synced⟩ := by
      unfold sync3
      rw [phase3_fold_store_frame_of_pending now _ (l1 ++ e :: l2) e hp remote0 _
        e.url hpend]
      exact h2s
    refine ⟨?_, ?_⟩
    · rw [syncRun_eq_stages]
      show storeLookup (phase4 (sync3 now genUrl (l1 ++ e :: l2) remote0).store) e.url = _
      rw [phase4_lookup, if_pos ⟨mem_storeKeys_of_lookup h3s, ht⟩, h3s]
      rfl
    · rw [syncRun_eq_stages]
      show remoteFind (sync3 now genUrl (l1 ++ e :: l2) remote0).remote e.url = _
      rw [hr32, hr21]
      exact h1r

/-- Closed instance of the amended C2, spec scenario 4: local time 12
beats the remote time 11, so the local fields reach the remote record
and the local entry ends `synced` with its fields intact. -/
theorem sync_last_write_wins_witness :
    ((12 : Int) > remoteTime ⟨"https://pod/t/d", mkFields "Bar", some 5, some 11⟩) ∧
    storeLookup (syncRun 100 exGen
        [⟨"https://pod/t/d", mkFields "Foo", 12, SyncFlag.pending⟩]
        [⟨"https://pod/t/d", mkFields "Bar", some 5, some 11⟩]).store
        "https://pod/t/d"
      = some ⟨"https://pod/t/d", mkFields "Foo", 12, SyncFlag.synced⟩ ∧
    remoteFind (syncRun 100 exGen
        [⟨"https://pod/t/d", mkFields "Foo", 12, SyncFlag.pending⟩]
        [⟨"https://pod/t/d", mkFields "Bar", some 5, some 11⟩]).remote
        "https://pod/t/d"
      = some ⟨"https://pod/t/d", pushFields (mkFields "Foo") (mkFields "Bar"),
          some 5, some 11⟩ := by
  refine ⟨by decide, ?_, ?_⟩
  · exact ((sync_last_write_wins 100 exGen
      [⟨"https://pod/t/d", mkFields "Foo", 12, SyncFlag.pending⟩]
      [⟨"https://pod/t/d", mkFields "Bar", some 5, some 11⟩]
      ⟨"https://pod/t/d", mkFields "Foo", 12, SyncFlag.pending⟩
      ⟨"https://pod/t/d", mkFields "Bar", some 5, some 11⟩
      (by decide) (by decide) (by decide) (by decide) (by decide) (by decide)
      (by decide) (by decide)).1 (by decide)).1
  · exact ((sync_last_write_wins 100 exGen
      [⟨"https://pod/t/d", mkFields "Foo", 12, SyncFlag.pending⟩]
      [⟨"https://pod/t/d", mkFields "Bar", some 5, some 11⟩]
      ⟨"https://pod/t/d", mkFields "Foo", 12, SyncFlag.pending⟩
      ⟨"https://pod/t/d", mkFields "Bar", some 5, some 11⟩
      (by decide) (by decide) (by decide) (by decide) (by decide) (by decide)
      (by decide) (by decide)).1 (by decide)).2

/-! ## Claim C3: locally created tasks are created remotely and re-keyed -/

/-- C3.  A `temp:`-keyed Local Store entry triggers exactly one remote
`create` carrying its fields during a successful `sync()` run; the
placeholder-keyed entry is gone afterwards and the same field values sit
under the server-assigned url with `syncStatus = synced`.  The store
holds one record per key, `temp:` urls never occur remotely, and the
urls the server assigns are fresh and pairwise distinct. -/
theorem sync_creates_new_task (now : Int) (genUrl : Nat → String)
    (store0 : List LocalEntry) (remote0 : List RemoteTask) (e : LocalEntry)
    (hsn : SNodup store0) (hmem : e ∈ store0) (ht : isTempUrl e.url)
    (hre : e.url ∉ remote0.map RemoteTask.url)
    (hfresh : ∀ k, k < store0.length → genUrl k ∉ storeKeys store0)
    (hinj : ∀ k1, k1 < store0.length → ∀ k2, k2 < store0.length →
      genUrl k1 = genUrl k2 → k1 = k2) :
    ((syncRun now genUrl store0 remote0).creates.filter
        (fun pr => pr.1 == e.url) = [(e.url, e.fields)]) ∧
    storeLookup (syncRun now genUrl store0 remote0).store e.url = none ∧
    ∃ nu, (e.url, nu) ∈ (syncRun now genUrl store0 remote0).mapping ∧
      storeLookup (syncRun now genUrl store0 remote0).store nu =
        some ⟨nu, e.fields, now, SyncFlag.synced⟩ := by
  obtain ⟨l1, l2, rfl⟩ := List.append_of_mem hmem
  obtain ⟨he1, he2⟩ := snodup_middle hsn
  have hkeyse : e.url ∈ storeKeys (l1 ++ e :: l2) :=
    List.mem_map_of_mem LocalEntry.url hmem
  have hlen1 := List.length_append l1 (e :: l2)
  have hlen2 := List.length_cons e l2
  have htc1 := tempCount_le l1
  have htc2 := tempCount_le l2
  have hsplit : (sync1 now genUrl (l1 ++ e :: l2) remote0).mapping =
      p1map genUrl 0 l1 ++ (e.url, genUrl (tempCount l1)) ::
        p1map genUrl (tempCount l1 + 1) l2 := by
    unfold sync1
    rw [(phase1_fold_book now genUrl remote0 (l1 ++ e :: l2) _).1]
    dsimp only
    rw [List.nil_append, p1map_append, Nat.zero_add]
    congr 1
    simp only [p1map]
    rw [if_pos ht]
  have hA1 : ∀ pr ∈ p1map genUrl 0 l1, pr.1 ≠ e.url ∧ pr.2 ≠ e.url := by
    intro pr hpr
    obtain ⟨⟨t, htl, hurl, _⟩, k, _, hk2, hk3⟩ := p1map_mem hpr
    refine ⟨fun hh => he1 ?_, fun hh => hfresh k ?_ (by rw [← hk3, hh]; exact hkeyse)⟩
    · rw [← hh, ← hurl]
      exact List.mem_map_of_mem LocalEntry.url htl
    · omega
  have hB2 : ∀ pr ∈ p1map genUrl (tempCount l1 + 1) l2,
      pr.1 ≠ genUrl (tempCount l1) ∧ pr.2 ≠ genUrl (tempCount l1) := by
    intro pr hpr
    obtain ⟨⟨t, htl, hurl, _⟩, k, hk1, hk2, hk3⟩ := p1map_mem hpr
    constructor
    · intro hh
      refine hfresh (tempCount l1) (by omega) ?_
      rw [← hh, ← hurl]
      exact List.mem_map_of_mem LocalEntry.url
        (List.mem_append_right l1 (List.mem_cons_of_mem e htl))
    · intro hh
      have hne : k ≠ tempCount l1 := by omega
      exact hne (hinj k (by omega) (tempCount l1) (by omega) (by rw [← hk3]; exact hh))
  have hB2e : ∀ pr ∈ p1map genUrl (tempCount l1 + 1) l2,
      pr.1 ≠ e.url ∧ pr.2 ≠ e.url := by
    intro pr hpr
    obtain ⟨⟨t, htl, hurl, _⟩, k, hk1, hk2, hk3⟩ := p1map_mem hpr
    refine ⟨fun hh => he2 ?_, fun hh => hfresh k ?_ (by rw [← hk3, hh]; exact hkeyse)⟩
    · rw [← hh, ← hurl]
      exact List.mem_map_of_mem LocalEntry.url htl
    · omega
  have hsn1 : SNodup (sync1 now genUrl (l1 ++ e :: l2) remote0).store := by
    unfold sync1
    exact phase1_fold_snodup now genUrl remote0 _ _ hsn
  have hstore1 : storeLookup (sync1 now genUrl (l1 ++ e :: l2) remote0).store e.url
      = some e := by
    unfold sync1
    rw [List.foldl_append, List.foldl_cons,
      phase1_fold_store_frame now genUrl remote0 l2 _ e.url he2,
      phase1Step_temp_store now genUrl remote0 _ e ht,
      phase1_fold_store_frame now genUrl remote0 l1 _ e.url he1]
    exact storeLookup_of_mem hsn hmem
  have hsnMid : SNodup ((p1map genUrl 0 l1).foldl (phase2Step now (l1 ++ e :: l2))
      (sync1 now genUrl (l1 ++ e :: l2) remote0)).store :=
    phase2_fold_snodup now (l1 ++ e :: l2) _ _ hsn1
  have hstoreMid : storeLookup ((p1map genUrl 0 l1).foldl (phase2Step now (l1 ++ e :: l2))
      (sync1 now genUrl (l1 ++ e :: l2) remote0)).store e.url = some e := by
    rw [phase2_fold_store_frame now (l1 ++ e :: l2) _ _ e.url hA1]
    exact hstore1
  have hfindE : (l1 ++ e :: l2).find? (fun t => t.url == e.url) = some e := by
    rw [find?_url_eq_storeLookup]
    exact storeLookup_of_mem hsn hmem
  have hnue : e.url ≠ genUrl (tempCount l1) := by
    intro hh
    refine hfresh (tempCount l1) (by omega) ?_
    rw [← hh]
    exact hkeyse
  have hs2at : storeLookup (sync2 now genUrl (l1 ++ e :: l2) remote0).store
      (genUrl (tempCount l1)) =
      some ⟨genUrl (tempCount l1), e.fields, now, SyncFlag.synced⟩ := by
    unfold sync2
    rw [hsplit, List.foldl_append, List.foldl_cons,
      phase2_fold_store_frame now (l1 ++ e :: l2) _ _ (genUrl (tempCount l1)) hB2]
    unfold phase2Step
    dsimp only
    rw [hfindE]
    dsimp only
    exact syncRemoteToLocal_lookup_self now _ ⟨genUrl (tempCount l1), e.fields, none, none⟩
  have hs2e : storeLookup (sync2 now genUrl (l1 ++ e :: l2) remote0).store e.url
      = none := by
    unfold sync2
    rw [hsplit, List.foldl_append, List.foldl_cons,
      phase2_fold_store_frame now (l1 ++ e :: l2) _ _ e.url hB2e]
    unfold phase2Step
    dsimp only
    rw [hfindE]
    dsimp only
    rw [markAsSynced_lookup_ne _ _ _ hnue, saveFields_lookup_ne _ _ _ _ _ hnue]
    exact storeLookup_delEntry_self _ _ hsnMid
  have hs3e : storeLookup (sync3 now genUrl (l1 ++ e :: l2) remote0).store e.url
      = none := by
    unfold sync3
    rw [phase3_fold_store_frame now _ (l1 ++ e :: l2) remote0 _ e.url hre]
    exact hs2e
  have hm21 : (sync2 now genUrl (l1 ++ e :: l2) remote0).mapping =
      (sync1 now genUrl (l1 ++ e :: l2) remote0).mapping := by
    unfold sync2
    exact (phase2_fold_invar now (l1 ++ e :: l2) _ _).2.1
  have hnuMem : (e.url, genUrl (tempCount l1)) ∈
      (sync2 now genUrl (l1 ++ e :: l2) remote0).mapping := by
    rw [hm21, hsplit]
    exact List.mem_append_right _ (List.mem_cons_self _ _)
  have hnuInVals : genUrl (tempCount l1) ∈
      (sync2 now genUrl (l1 ++ e :: l2) remote0).mapping.map Prod.snd :=
    List.mem_map_of_mem Prod.snd hnuMem
  have hs3nu : storeLookup (sync3 now genUrl (l1 ++ e :: l2) remote0).store
      (genUrl (tempCount l1)) =
      some ⟨genUrl (tempCount l1), e.fields, now, SyncFlag.synced⟩ := by
    unfold sync3
    rw [phase3_fold_store_frame_of_mapped now _ (l1 ++ e :: l2) remote0 _ _ hnuInVals]
    exact hs2at
  refine ⟨?_, ?_, genUrl (tempCount l1), ?_, ?_⟩
  · have hc3 : (sync3 now genUrl (l1 ++ e :: l2) remote0).creates =
        (sync2 now genUrl (l1 ++ e :: l2) remote0).creates := by
      unfold sync3
      exact (phase3_fold_invar now _ (l1 ++ e :: l2) remote0 _).2.2
    have hc2 : (sync2 now genUrl (l1 ++ e :: l2) remote0).creates =
        (sync1 now genUrl (l1 ++ e :: l2) remote0).creates := by
      unfold sync2
      exact (phase2_fold_invar now (l1 ++ e :: l2) _ _).2.2
    have hc1 : (sync1 now genUrl (l1 ++ e :: l2) remote0).creates =
        p1creates (l1 ++ e :: l2) := by
      unfold sync1
      rw [(phase1_fold_book now genUrl remote0 (l1 ++ e :: l2) _).2.1]
      dsimp only
      rw [List.nil_append]
    rw [syncRun_eq_stages]
    show (sync3 now genUrl (l1 ++ e :: l2) remote0).creates.filter
      (fun pr => pr.1 == e.url) = [(e.url, e.fields)]
    rw [hc3, hc2, hc1]
    exact p1creates_filter hsn hmem ht
  · rw [syncRun_eq_stages]
    show storeLookup (phase4 (sync3 now genUrl (l1 ++ e :: l2) remote0).store) e.url = none
    exact phase4_none hs3e
  · rw [syncRun_eq_stages]
    show (e.url, genUrl (tempCount l1)) ∈ (sync3 now genUrl (l1 ++ e :: l2) remote0).mapping
    have hm32 : (sync3 now genUrl (l1 ++ e :: l2) remote0).mapping =
        (sync2 now genUrl (l1 ++ e :: l2) remote0).mapping := by
      unfold sync3
      exact (phase3_fold_invar now _ (l1 ++ e :: l2) remote0 _).2.1
    rw [hm32]
    exact hnuMem
  · rw [syncRun_eq_stages]
    show storeLookup (phase4 (sync3 now genUrl (l1 ++ e :: l2) remote0).store)
      (genUrl (tempCount l1)) =
      some ⟨genUrl (tempCount l1), e.fields, now, SyncFlag.synced⟩
    rw [phase4_lookup, hs3nu]
    split <;> rfl

/-- Closed instance of C3, spec scenario 1: the `temp:1` task is created
remotely exactly once, its placeholder key disappears, and its fields
reappear under the assigned url marked `synced`. -/
theorem sync_creates_new_task_witness :
    ((syncRun 100 exGen [⟨"temp:1", mkFields "A", 5, SyncFlag.pending⟩] []).creates.filter
        (fun pr => pr.1 == "temp:1") = [("temp:1", mkFields "A")]) ∧
    storeLookup (syncRun 100 exGen
      [⟨"temp:1", mkFields "A", 5, SyncFlag.pending⟩] []).store "temp:1" = none ∧
    ∃ nu, ("temp:1", nu) ∈
        (syncRun 100 exGen [⟨"temp:1", mkFields "A", 5, SyncFlag.pending⟩] []).mapping ∧
      storeLookup (syncRun 100 exGen
          [⟨"temp:1", mkFields "A", 5, SyncFlag.pending⟩] []).store nu =
        some ⟨nu, mkFields "A", 100, SyncFlag.synced⟩ :=
  sync_creates_new_task 100 exGen [⟨"temp:1", mkFields "A", 5, SyncFlag.pending⟩] []
    ⟨"temp:1", mkFields "A", 5, SyncFlag.pending⟩
    (by decide) (by decide) (by decide) (by decide) (by decide) (by decide)

end SolidPlanner
